import Mathlib

/-!
Verification of the density-peak clustering core of `fdc/fdc.py`
(fast density clustering).  The embedding models densities and
distances as rationals, point indices as naturals, the per-point
arrays (`rho`, `delta`, `nn_delta`, `density_graph`, `cluster_label`)
as lists, and the unbounded Python loops (the merge convergence loop,
the breadth-first neighborhood expansion, the recursive basin
traversal) as fuel-indexed recursions returning `Option`.
-/

set_option maxRecDepth 4000

namespace FDC

/-- Numerical tolerance used by `index_greater` (Python `prec=1e-8`). -/
def tolSmall : ℚ := 1 / 100000000

/-- First position (in the whole list) holding a value strictly above `bound`. -/
def findFirstAbove (bound : ℚ) : List ℚ → Option Nat
  | [] => none
  | v :: vs => if bound < v then some 0 else (findFirstAbove bound vs).map (· + 1)

/-- Embeds `index_greater` from `fdc.py`: first item in `a` with a value
greater than `a[0] + prec`; `none` when no such item exists (Python `None`). -/
def index_greater (a : List ℚ) (prec : ℚ) : Option Nat :=
  match a with
  | [] => none
  | item :: _ => findFirstAbove (item + prec) a

/-- Insert into a sorted list of integers (ascending). -/
def insSorted (x : ℤ) : List ℤ → List ℤ
  | [] => [x]
  | y :: ys => if x ≤ y then x :: y :: ys else y :: insSorted x ys

/-- Sort a list of integers ascending (insertion sort). -/
def sortInts (l : List ℤ) : List ℤ := l.foldr insSorted []

/-- Embeds `np.unique`: sorted list of the distinct values. -/
def npUnique (l : List ℤ) : List ℤ := (sortInts l).dedup

/-- Helper for `argmaxQ`: current best value and its position. -/
def argmaxAux : List ℚ → ℚ → Nat → Nat → Nat
  | [], _, _, best => best
  | x :: xs, bestv, i, best =>
    if bestv < x then argmaxAux xs x (i + 1) i else argmaxAux xs bestv (i + 1) best

/-- Embeds `np.argmax`: position of the first maximal value
(`none` on the empty array, where numpy raises). -/
def argmaxQ : List ℚ → Option Nat
  | [] => none
  | x :: xs => some (argmaxAux xs x 1 0)

/-- Numpy integer indexing with wrap-around for negative indices. -/
def pyIdx (len : Nat) (i : ℤ) : Nat := (if i < 0 then (len : ℤ) + i else i).toNat

/-- Numpy-style element access on a list of naturals (negative indices wrap). -/
def pyGetNat (l : List Nat) (i : ℤ) : Nat := l.getD (pyIdx l.length i) 0

/-- Append one element to the list stored at position `j`. -/
def listAppendAt (g : List (List Nat)) (j : Nat) (v : Nat) : List (List Nat) :=
  g.set j (g.getD j [] ++ [v])

/-- The slice `row[1:k]` of a neighbor row (drop self, keep `k - 1` entries). -/
def slice1 (row : List Nat) (k : Nat) : List Nat := (row.drop 1).take (k - 1)

/-- Static configuration and oracle data of one clustering run: densities,
neighbor lists with their distances (ordered by increasing distance, self
first), the two neighborhood bounds, the pairwise Euclidean distance
function of the feature space and the sentinel `maxdist`. -/
structure Cfg where
  n : Nat
  rho : List ℚ
  nn : List (List Nat)
  nnDist : List (List ℚ)
  nh_size : Nat
  search_size : Nat
  edist : Nat → Nat → ℚ
  maxdist : ℚ

/-- Mutable per-point state threaded through the merger:
`nnDelta` (parent, `-1` for none), `delta`, `graph` (children lists),
`centers` (`idx_centers_unmerged`) and `labels` (`cluster_label`). -/
structure St where
  nnDelta : List ℤ
  delta : List ℚ
  graph : List (List Nat)
  centers : List Nat
  labels : List ℤ
deriving DecidableEq, Repr

/-- Output accumulator of the gradient-graph builder. -/
structure GradAcc where
  delta : List ℚ
  nnDelta : List ℤ
  graph : List (List Nat)
deriving DecidableEq, Repr

/-- The neighbor row of point `i` restricted to the user cutoff
(`nn_list[:, :nh_size]` in the source). -/
def nhRow (cfg : Cfg) (i : Nat) : List Nat := (cfg.nn.getD i []).take cfg.nh_size

/-- The density values scanned by `index_greater` for point `i`. -/
def gradVals (cfg : Cfg) (i : Nat) : List ℚ :=
  (nhRow cfg i).map (fun j => cfg.rho.getD j 0)

/-- The `index_greater` call of the builder loop body for point `i`. -/
def gradIdx (cfg : Cfg) (i : Nat) : Option Nat :=
  index_greater (gradVals cfg i) tolSmall

/-- One iteration of the loop body of `FDC.compute_delta`, for point `i`.
The guard on the result of `index_greater` is Python truthiness
(`if idx:`), which rejects both `None` and `0`. -/
def computeDeltaStep (cfg : Cfg) (acc : GradAcc) (i : Nat) : GradAcc :=
  match gradIdx cfg i with
  | some idx =>
    if idx = 0 then
      { acc with nnDelta := acc.nnDelta.set i (-1) }
    else
      { delta := acc.delta.set i ((cfg.nnDist.getD i []).getD idx 0),
        nnDelta := acc.nnDelta.set i (Int.ofNat ((nhRow cfg i).getD idx 0)),
        graph := listAppendAt acc.graph ((nhRow cfg i).getD idx 0) i }
  | none => { acc with nnDelta := acc.nnDelta.set i (-1) }

/-- Embeds `FDC.compute_delta`: builds `delta`, `nn_delta`, the reverse
adjacency `density_graph`, and the candidate-center list
(`delta > 0.99 * maxdist`). -/
def compute_delta (cfg : Cfg) : GradAcc × List Nat :=
  let init : GradAcc :=
    ⟨List.replicate cfg.n cfg.maxdist, List.replicate cfg.n 1,
      List.replicate cfg.n []⟩
  let out := (List.range cfg.n).foldl (computeDeltaStep cfg) init
  (out, (List.range cfg.n).filter (fun i => (99 / 100 : ℚ) * cfg.maxdist < out.delta.getD i 0))

/-- Variant of `computeDeltaStep` whose guard is `if idx is not None:`
instead of Python truthiness; used to settle claim C10. -/
def computeDeltaStepNoneGuard (cfg : Cfg) (acc : GradAcc) (i : Nat) : GradAcc :=
  match gradIdx cfg i with
  | some idx =>
    { delta := acc.delta.set i ((cfg.nnDist.getD i []).getD idx 0),
      nnDelta := acc.nnDelta.set i (Int.ofNat ((nhRow cfg i).getD idx 0)),
      graph := listAppendAt acc.graph ((nhRow cfg i).getD idx 0) i }
  | none => { acc with nnDelta := acc.nnDelta.set i (-1) }

/-- `compute_delta` with the `is-not-None` guard. -/
def compute_delta_noneGuard (cfg : Cfg) : GradAcc × List Nat :=
  let init : GradAcc :=
    ⟨List.replicate cfg.n cfg.maxdist, List.replicate cfg.n 1,
      List.replicate cfg.n []⟩
  let out := (List.range cfg.n).foldl (computeDeltaStepNoneGuard cfg) init
  (out, (List.range cfg.n).filter (fun i => (99 / 100 : ℚ) * cfg.maxdist < out.delta.getD i 0))

/-- Squared Euclidean norm of a rational vector. -/
def sqNorm (v : List ℚ) : ℚ := (v.map (fun x => x * x)).sum

/-- Coordinatewise difference of two feature vectors. -/
def featSub (a b : List ℚ) : List ℚ := List.zipWith (fun x y => x - y) a b

/-- Squared Euclidean distance between points `i` and `j` of the dataset. -/
def sqDist (X : List (List ℚ)) (i j : Nat) : ℚ :=
  sqNorm (featSub (X.getD i []) (X.getD j []))

/-- Maximum of a list of rationals (`0` for the empty list). -/
def listMaxQ : List ℚ → ℚ
  | [] => 0
  | x :: xs => xs.foldl max x

/-- Minimum of a list of rationals (`0` for the empty list). -/
def listMinQ : List ℚ → ℚ
  | [] => 0
  | x :: xs => xs.foldl min x

/-- The coordinatewise extents `max X[:,f] - min X[:,f]` of the dataset. -/
def extentsOf (X : List (List ℚ)) : List ℚ :=
  (List.range (X.getD 0 []).length).map
    (fun f => listMaxQ (X.map (fun r => r.getD f 0)) - listMinQ (X.map (fun r => r.getD f 0)))

/-- `m` is the sentinel computed by `compute_delta`:
the Euclidean norm of the coordinatewise extents of `X`. -/
def IsMaxdist (X : List (List ℚ)) (m : ℚ) : Prop :=
  0 ≤ m ∧ m * m = sqNorm (extentsOf X)

/-- `d` is the Euclidean distance function of the dataset `X`. -/
def IsEuclid (X : List (List ℚ)) (d : Nat → Nat → ℚ) : Prop :=
  ∀ i j, 0 ≤ d i j ∧ d i j * d i j = sqDist X i j

/-- Admission test of the tree search: an unseen point of density above
`thresh` joins the visited set and the next frontier. -/
def admitStep (cfg : Cfg) (thresh : ℚ) (acc : List Nat × List Nat)
    (p : Nat) : List Nat × List Nat :=
  if thresh < cfg.rho.getD p 0 ∧ p ∉ acc.1 then (acc.1 ++ [p], acc.2 ++ [p])
  else acc

/-- Inner loop of `find_NH_tree_search`: scan the truncated neighbor row
of one frontier leaf, admitting unseen points of density above `thresh`
into the visited set and the next frontier. -/
def expandLeaf (cfg : Cfg) (labels : List ℤ) (curLab : ℤ) (thresh : ℚ)
    (acc : List Nat × List Nat) (leaf : Nat) : List Nat × List Nat :=
  if labels.getD leaf (-1) = curLab then
    (slice1 (cfg.nn.getD leaf []) cfg.search_size).foldl (admitStep cfg thresh) acc
  else acc

/-- The `while True` loop of `find_NH_tree_search`, fuel-indexed:
stops (returning the visited set) when a round adds no new leaves. -/
def findNHLoop (cfg : Cfg) (labels : List ℤ) (curLab : ℤ) (thresh : ℚ) :
    Nat → List Nat → List Nat → Option (List Nat)
  | 0, _, _ => none
  | fuel + 1, NH, newLeaves =>
    if newLeaves = [] then some NH
    else
      let out := newLeaves.foldl (expandLeaf cfg labels curLab thresh) (NH, [])
      findNHLoop cfg labels curLab thresh fuel out.1 out.2

/-- Embeds `FDC.find_NH_tree_search`: threshold-gated breadth-first
expansion started from the first `nh_size - 1` neighbors of `idx`,
expanding only through points carrying the current label of `idx` and
admitting only points of density above `thresh` (`eta` in the source,
which receives `rho[idx] - threshold` from the caller). -/
def find_NH_tree_search (cfg : Cfg) (labels : List ℤ) (fuel : Nat)
    (idx : Nat) (thresh : ℚ) : Option (List Nat) :=
  let init := slice1 (cfg.nn.getD idx []) cfg.nh_size
  findNHLoop cfg labels (labels.getD idx (-1)) thresh fuel init init

/-- The extended neighborhood used by one candidate inside
`check_cluster_stability`: the plain truncated neighbor row when the
threshold is below `1e-3`, the tree search otherwise. -/
def passNH (cfg : Cfg) (fuel : Nat) (labels : List ℤ) (idx : Nat)
    (threshold : ℚ) : Option (List Nat) :=
  if threshold < 1 / 1000 then some (slice1 (cfg.nn.getD idx []) cfg.search_size)
  else find_NH_tree_search cfg labels fuel idx (cfg.rho.getD idx 0 - threshold)

/-- `idx_centers[label_centers_nn]`: the accepted centers indexed
(numpy-style, negative labels wrap) by the sorted distinct labels
present in `NH`. -/
def nhLabelCenters (centersIn : List Nat) (labels : List ℤ)
    (NH : List Nat) : List Nat :=
  (npUnique (NH.map (fun p => labels.getD p (-1)))).map
    (fun l => pyGetNat centersIn l)

/-- Embeds
`idx_centers[label_centers_nn[np.argmax(rho[idx_centers[label_centers_nn]])]]`:
the accepted center, indexed (numpy-style, negative labels wrap) by the
first density-argmax of the sorted distinct labels present in `NH`.
`none` when the label list is empty (numpy raises there). -/
def idxMaxOf (cfg : Cfg) (centersIn : List Nat) (labels : List ℤ)
    (NH : List Nat) : Option Nat :=
  match argmaxQ ((nhLabelCenters centersIn labels NH).map
      (fun c => cfg.rho.getD c 0)) with
  | none => none
  | some k => some ((nhLabelCenters centersIn labels NH).getD k 0)

/-- Whether candidate `idx` is demoted by the pass: its `idx_max` has a
strictly higher density and differs from `idx`. -/
def demotes (cfg : Cfg) (fuel : Nat) (labels : List ℤ) (centersIn : List Nat)
    (threshold : ℚ) (idx : Nat) : Bool :=
  match passNH cfg fuel labels idx threshold with
  | none => false
  | some NH =>
    match idxMaxOf cfg centersIn labels NH with
    | none => false
    | some im => decide (cfg.rho.getD idx 0 < cfg.rho.getD im 0 ∧ idx ≠ im)

/-- The `idx_max` a candidate resolves to (for the fixed pass inputs). -/
def targetOf (cfg : Cfg) (fuel : Nat) (labels : List ℤ) (centersIn : List Nat)
    (threshold : ℚ) (idx : Nat) : Option Nat :=
  match passNH cfg fuel labels idx threshold with
  | none => none
  | some NH => idxMaxOf cfg centersIn labels NH

/-- Accumulator of one stability pass: the accepted centers collected so
far, the false-positive count, and the mutated per-point arrays. -/
structure PassAcc where
  trueCenters : List Nat
  nFP : Nat
  nnDelta : List ℤ
  delta : List ℚ
  graph : List (List Nat)
deriving DecidableEq, Repr

/-- Demotion of candidate `idx` into center `im`: rewrite the parent
edge, recompute `delta[idx]` as the direct feature-space distance,
append `idx` to `children[im]`, count one false positive. -/
def demoteAcc (cfg : Cfg) (acc : PassAcc) (idx im : Nat) : PassAcc :=
  { trueCenters := acc.trueCenters, nFP := acc.nFP + 1,
    nnDelta := acc.nnDelta.set idx (Int.ofNat im),
    delta := acc.delta.set idx (cfg.edist im idx),
    graph := listAppendAt acc.graph im idx }

/-- A candidate that survives the pass is appended to the accepted list. -/
def keepAcc (acc : PassAcc) (idx : Nat) : PassAcc :=
  { acc with trueCenters := acc.trueCenters ++ [idx] }

/-- The body of the candidate loop of `check_cluster_stability` for one
candidate `idx` (`none` models the numpy failure on an empty label set,
or an exhausted search). -/
def passStep (cfg : Cfg) (fuel : Nat) (labels : List ℤ) (centersIn : List Nat)
    (threshold : ℚ) (acc : PassAcc) (idx : Nat) : Option PassAcc :=
  match passNH cfg fuel labels idx threshold with
  | none => none
  | some NH =>
    match idxMaxOf cfg centersIn labels NH with
    | none => none
    | some im =>
      if cfg.rho.getD idx 0 < cfg.rho.getD im 0 ∧ idx ≠ im then
        some (demoteAcc cfg acc idx im)
      else some (keepAcc acc idx)

/-- The candidate loop of `check_cluster_stability`, over the remaining
candidates `todo`; `labels` and `centersIn` are the pass-wide snapshots. -/
def passLoop (cfg : Cfg) (fuel : Nat) (labels : List ℤ) (centersIn : List Nat)
    (threshold : ℚ) : List Nat → PassAcc → Option PassAcc
  | [], acc => some acc
  | idx :: rest, acc =>
    match passStep cfg fuel labels centersIn threshold acc idx with
    | none => none
    | some acc2 => passLoop cfg fuel labels centersIn threshold rest acc2

/-- Embeds `check_cluster_stability`: one full pass over the current
candidates, returning the accepted centers, the false-positive count and
the mutated state. -/
def check_cluster_stability (cfg : Cfg) (fuel : Nat) (s : St) (threshold : ℚ) :
    Option (List Nat × Nat × St) :=
  match passLoop cfg fuel s.labels s.centers threshold s.centers
      ⟨[], 0, s.nnDelta, s.delta, s.graph⟩ with
  | none => none
  | some acc =>
    some (acc.trueCenters, acc.nFP,
      { s with nnDelta := acc.nnDelta, delta := acc.delta, graph := acc.graph })

/-- Embeds the recursive `assign_cluster_deep` with explicit fuel:
stamp `lab` on every child in `root` and recurse into its children. -/
def assign_cluster_deep (g : List (List Nat)) (lab : ℤ) :
    Nat → List ℤ → List Nat → List ℤ
  | 0, cl, _ => cl
  | fuel + 1, cl, root =>
    root.foldl (fun cl2 child =>
      assign_cluster_deep g lab fuel (cl2.set child lab) (g.getD child [])) cl

/-- One step of the `assign_cluster` fold: stamp center `p.1` with its
positional label `p.2` and propagate it depth-first through its children. -/
def acStep (g : List (List Nat)) (fuel : Nat) (cl : List ℤ) (p : Nat × Nat) :
    List ℤ :=
  assign_cluster_deep g (Int.ofNat p.2) fuel (cl.set p.1 (Int.ofNat p.2))
    (g.getD p.1 [])

/-- Embeds `assign_cluster`: every center gets its own label (its position
in the center list) which is propagated through the children graph. -/
def assign_cluster (fuel : Nat) (centers : List Nat) (n : Nat)
    (g : List (List Nat)) : List ℤ :=
  (List.zip centers (List.range centers.length)).foldl (acStep g fuel)
    (List.replicate n (-1))

/-- Fuel-bounded reachability along the children graph: `reachN g k u v`
holds when some chain of at most `k` children edges leads from `u` to `v`. -/
def reachN (g : List (List Nat)) : Nat → Nat → Nat → Bool
  | 0, u, v => u = v
  | fuel + 1, u, v => u = v || (g.getD u []).any (fun w => reachN g fuel w v)

/-- `v` lies in the basin of `u`: some chain of children edges leads from
`u` down to `v`. -/
def Reach (g : List (List Nat)) (u v : Nat) : Prop :=
  ∃ k, reachN g k u v = true

/-- The set of points stamped by a depth-`fuel` run of the deep labeler
started on the children list `root`. -/
def stamped (g : List (List Nat)) : Nat → List Nat → Nat → Bool
  | 0, _, _ => false
  | fuel + 1, root, v =>
    decide (v ∈ root) || root.any (fun c => stamped g fuel (g.getD c []) v)

/-- The set of points relabeled when center `c` is processed: `c` itself
plus everything the deep labeler stamps from its children row. -/
def basin (g : List (List Nat)) (fuel : Nat) (c v : Nat) : Bool :=
  decide (v = c) || stamped g fuel (g.getD c []) v

/-- First-approximation relabeling done at the top of every iteration of
`check_cluster_stability_fast`. -/
def relabel (cfg : Cfg) (s : St) : St :=
  { s with labels := assign_cluster cfg.n s.centers cfg.n s.graph }

/-- Embeds `FDC.check_cluster_stability_fast`: iterate relabeling plus one
stability pass until a pass produces zero false positives. -/
def fastLoop (cfg : Cfg) (nhFuel : Nat) (eta : ℚ) : Nat → St → Option St
  | 0, _ => none
  | fuel + 1, s =>
    match check_cluster_stability cfg nhFuel (relabel cfg s) eta with
    | none => none
    | some (c, nfp, s2) =>
      if nfp = 0 then some { s2 with centers := c }
      else fastLoop cfg nhFuel eta fuel { s2 with centers := c }

/-- Output of the coarse-grain hierarchy builder. -/
structure CoarseOut where
  state : St
  hierarchy : List (List Nat × List ℤ)
  maxNoise : ℚ
  nCluster : Nat
deriving DecidableEq, Repr

/-- The threshold loop of `FDC.coarse_grain`. -/
def coarseLoop (cfg : Cfg) (nhFuel loopFuel : Nat) :
    List ℚ → St → List (List Nat × List ℤ) → ℚ → Nat → Option CoarseOut
  | [], s, hier, mx, ncl => some ⟨s, hier, mx, ncl⟩
  | nt :: rest, s, hier, mx, ncl =>
    match fastLoop cfg nhFuel nt loopFuel s with
    | none => none
    | some s2 =>
      let hier2 := hier ++ [(s2.centers, s2.labels)]
      if s2.centers.length ≠ ncl then
        coarseLoop cfg nhFuel loopFuel rest s2 hier2 nt s2.centers.length
      else
        coarseLoop cfg nhFuel loopFuel rest s2 hier2 mx ncl

/-- Embeds `FDC.coarse_grain`: run the merger to convergence at each
requested noise value in order, snapshotting `(idx_centers, labels)`. -/
def coarse_grain (cfg : Cfg) (nhFuel loopFuel : Nat) (s : St)
    (noiseRange : List ℚ) : Option CoarseOut :=
  coarseLoop cfg nhFuel loopFuel noiseRange s [] (-1) 0

/-! ### Concrete datasets used as witnesses and counterexamples -/

/-- One-dimensional coordinates of the 5-point example: two basins
(points 0,1 around the high mode, points 3,4 around the low mode)
joined by a low-density bridge point 2. -/
def X5 : List (List ℚ) := [[0], [1], [21/10], [33/10], [21/5]]

/-- 5-point example configuration (densities, 3-nearest-neighbor oracle
rows ordered by distance, `nh_size = 2`, `search_size = 3`). -/
def cfg5 : Cfg where
  n := 5
  rho := [10, 8, 1, 4, 5]
  nn := [[0, 1, 2], [1, 0, 2], [2, 1, 3], [3, 4, 2], [4, 3, 2]]
  nnDist := [[0, 1, 21/10], [0, 1, 11/10], [0, 11/10, 6/5], [0, 9/10, 6/5], [0, 9/10, 21/10]]
  nh_size := 2
  search_size := 3
  edist := fun i j => |(X5.getD i []).getD 0 0 - (X5.getD j []).getD 0 0|
  maxdist := 21/5

/-- Initial merger state of the 5-point example, as produced by the
gradient-graph builder (labels start unassigned; the fast loop
recomputes them first). -/
def s5 : St where
  nnDelta := (compute_delta cfg5).1.nnDelta
  delta := (compute_delta cfg5).1.delta
  graph := (compute_delta cfg5).1.graph
  centers := (compute_delta cfg5).2
  labels := List.replicate 5 (-1)

/-- The 5-point state after the first-pass labeling. -/
def s5L : St := relabel cfg5 s5

/-- Two points at unit distance: the lower-density one has a parent at
distance exactly equal to the sentinel. -/
def cfg7 : Cfg where
  n := 2
  rho := [0, 1]
  nn := [[0, 1], [1, 0]]
  nnDist := [[0, 1], [0, 1]]
  nh_size := 2
  search_size := 2
  edist := fun i j => |((([0, 1] : List ℚ)).getD i 0) - ((([0, 1] : List ℚ)).getD j 0)|
  maxdist := 1

/-- 3-point configuration for the missing-center-label scenario. -/
def cfg9 : Cfg where
  n := 3
  rho := [1, 0, 5]
  nn := [[0, 1, 2], [1, 0, 2], [2, 1, 0]]
  nnDist := [[0, 1, 2], [0, 1, 2], [0, 1, 2]]
  nh_size := 2
  search_size := 2
  edist := fun i j => ((i : ℤ) - (j : ℤ)).natAbs
  maxdist := 5

/-- Malformed state: point 1 carries no label (`-1`), so the extended
neighborhood of candidate 0 contains no recognized center label. -/
def s9 : St where
  nnDelta := [-1, 0, -1]
  delta := [5, 1, 5]
  graph := [[1], [], []]
  centers := [0, 2]
  labels := [0, -1, 1]

/-! ### Specification-side predicates and named intermediate states -/

/-- The parent entry `nn_delta[i]` the builder writes for point `i`. -/
def gradParent (cfg : Cfg) (i : Nat) : ℤ :=
  match gradIdx cfg i with
  | some (k + 1) => Int.ofNat ((nhRow cfg i).getD (k + 1) 0)
  | _ => -1

/-- What the builder writes into `delta[i]` (`none` = left untouched). -/
def gradDeltaWrite (cfg : Cfg) (i : Nat) : Option ℚ :=
  match gradIdx cfg i with
  | some (k + 1) => some ((cfg.nnDist.getD i []).getD (k + 1) 0)
  | _ => none

/-- The density-monotonicity invariant: every point with a parent
(`nn_delta[i] ≥ 0`) has a strictly denser parent. -/
def DensityInv (cfg : Cfg) (nd : List ℤ) : Prop :=
  ∀ i, i < cfg.n → 0 ≤ nd.getD i 0 →
    cfg.rho.getD i 0 < cfg.rho.getD (nd.getD i 0).toNat 0

/-- All labels seen in `NH` index a currently-accepted center. -/
def labelsInRange (centersIn : List Nat) (labels : List ℤ) (NH : List Nat) : Prop :=
  ∀ p ∈ NH, 0 ≤ labels.getD p (-1) ∧ (labels.getD p (-1)).toNat < centersIn.length

/-- Membership justification for the threshold-gated expansion: a point
belongs to the neighborhood of `idx` iff it is one of the first
`nh_size - 1` neighbors of `idx`, or was admitted (density above the
threshold) from the truncated `search_size` window of an already-admitted
point carrying the current label of `idx`. -/
inductive NHmem (cfg : Cfg) (labels : List ℤ) (idx : Nat) (thresh : ℚ) : Nat → Prop
  | base (p : Nat) (hp : p ∈ slice1 (cfg.nn.getD idx []) cfg.nh_size) :
      NHmem cfg labels idx thresh p
  | step (p q : Nat) (hp : NHmem cfg labels idx thresh p)
      (hl : labels.getD p (-1) = labels.getD idx (-1))
      (hq : q ∈ slice1 (cfg.nn.getD p []) cfg.search_size)
      (hr : thresh < cfg.rho.getD q 0) : NHmem cfg labels idx thresh q

/-- `p`'s window is fully admitted into `S` (when `p` carries the
current label). -/
def NHclosed (cfg : Cfg) (labels : List ℤ) (curLab : ℤ) (thresh : ℚ)
    (S : List Nat) (p : Nat) : Prop :=
  labels.getD p (-1) = curLab →
    ∀ q ∈ slice1 (cfg.nn.getD p []) cfg.search_size,
      thresh < cfg.rho.getD q 0 → q ∈ S

/-- The gradient-forest state of the 5-point dataset, unlabeled. -/
def sPre : St :=
  ⟨[-1, 0, 1, 4, -1], [21/5, 1, 11/10, 9/10, 21/5],
    [[1], [2], [], [], [3]], [0, 4], [-1, -1, -1, -1, -1]⟩

/-- The same state after first-pass labeling. -/
def sLab : St :=
  ⟨[-1, 0, 1, 4, -1], [21/5, 1, 11/10, 9/10, 21/5],
    [[1], [2], [], [], [3]], [0, 4], [0, 0, 0, 1, 1]⟩

/-- The state after the first zero-threshold pass demoted center 4. -/
def sMid : St :=
  ⟨[-1, 0, 1, 4, 0], [21/5, 1, 11/10, 9/10, 21/5],
    [[1, 4], [2], [], [], [3]], [0, 4], [0, 0, 0, 1, 1]⟩

/-- The converged state of the zero-threshold run: one center. -/
def tA : St :=
  ⟨[-1, 0, 1, 4, 0], [21/5, 1, 11/10, 9/10, 21/5],
    [[1, 4], [2], [], [], [3]], [0], [0, 0, 0, 0, 0]⟩

/-! ### List access helpers -/

theorem getD_set_self {α : Type} (l : List α) (i : Nat) (a d : α)
    (h : i < l.length) : (l.set i a).getD i d = a := by
  induction l generalizing i with
  | nil => simp at h
  | cons x xs ih =>
    cases i with
    | zero => rfl
    | succ j => simpa using ih j (by simpa using h)

theorem getD_set_of_ne {α : Type} (l : List α) (i j : Nat) (a d : α)
    (h : i ≠ j) : (l.set i a).getD j d = l.getD j d := by
  induction l generalizing i j with
  | nil => rfl
  | cons x xs ih =>
    cases i with
    | zero =>
      cases j with
      | zero => exact absurd rfl h
      | succ k => rfl
    | succ i2 =>
      cases j with
      | zero => rfl
      | succ k => simpa using ih i2 k (fun hc => h (by rw [hc]))

theorem getD_replicate {α : Type} (n i : Nat) (x d : α) (h : i < n) :
    (List.replicate n x).getD i d = x := by
  induction n generalizing i with
  | zero => simp at h
  | succ m ih =>
    cases i with
    | zero => rfl
    | succ j =>
      have := ih j (by omega)
      simpa [List.replicate_succ] using this

theorem getD_map_rho (f : Nat → ℚ) (l : List Nat) (k : Nat) (h : k < l.length) :
    (l.map f).getD k 0 = f (l.getD k 0) := by
  induction l generalizing k with
  | nil => simp at h
  | cons x xs ih =>
    cases k with
    | zero => rfl
    | succ j => simpa using ih j (by simpa using h)

theorem getD_append_left {α : Type} (l m : List α) (k : Nat) (d : α)
    (h : k < l.length) : (l ++ m).getD k d = l.getD k d := by
  induction l generalizing k with
  | nil => simp at h
  | cons x xs ih =>
    cases k with
    | zero => rfl
    | succ j => simpa using ih j (by simpa using h)

theorem listAppendAt_getD_self (g : List (List Nat)) (j : Nat) (v : Nat)
    (h : j < g.length) :
    (listAppendAt g j v).getD j [] = g.getD j [] ++ [v] :=
  getD_set_self g j _ [] h

theorem listAppendAt_getD_ne (g : List (List Nat)) (j j2 : Nat) (v : Nat)
    (h : j ≠ j2) : (listAppendAt g j v).getD j2 [] = g.getD j2 [] :=
  getD_set_of_ne g j j2 _ [] h

theorem mem_listAppendAt (g : List (List Nat)) (j j2 : Nat) (v x : Nat)
    (h : x ∈ g.getD j2 []) : x ∈ (listAppendAt g j v).getD j2 [] := by
  by_cases hj : j = j2
  · subst hj
    by_cases hlen : j < g.length
    · rw [listAppendAt_getD_self g j v hlen]; exact List.mem_append_left _ h
    · unfold listAppendAt
      rw [List.set_eq_of_length_le (by omega)]
      exact h
  · rw [listAppendAt_getD_ne g j j2 v hj]; exact h

theorem length_listAppendAt (g : List (List Nat)) (j v : Nat) :
    (listAppendAt g j v).length = g.length := by
  unfold listAppendAt; exact List.length_set g j _

/-! ### Characterization of `findFirstAbove` / `index_greater` -/

theorem ffa_some_lt_length (b : ℚ) (l : List ℚ) (k : Nat)
    (h : findFirstAbove b l = some k) : k < l.length := by
  induction l generalizing k with
  | nil => simp [findFirstAbove] at h
  | cons x xs ih =>
    unfold findFirstAbove at h
    by_cases hb : b < x
    · simp [hb] at h
      rw [← h]
      simp
    · simp [hb] at h
      obtain ⟨k2, hk2, rfl⟩ := h
      have := ih k2 hk2
      simpa using Nat.succ_lt_succ this

theorem ffa_some_spec (b : ℚ) (l : List ℚ) (k : Nat)
    (h : findFirstAbove b l = some k) :
    b < l.getD k 0 ∧ ∀ j, j < k → ¬ b < l.getD j 0 := by
  induction l generalizing k with
  | nil => simp [findFirstAbove] at h
  | cons x xs ih =>
    unfold findFirstAbove at h
    by_cases hb : b < x
    · simp [hb] at h
      subst h
      exact ⟨hb, fun j hj => absurd hj (by omega)⟩
    · simp [hb] at h
      obtain ⟨k2, hk2, rfl⟩ := h
      obtain ⟨h1, h2⟩ := ih k2 hk2
      refine ⟨by simpa using h1, ?_⟩
      intro j hj
      cases j with
      | zero => simpa using hb
      | succ j2 => simpa using h2 j2 (by omega)

theorem ffa_none_spec (b : ℚ) (l : List ℚ)
    (h : findFirstAbove b l = none) :
    ∀ j, j < l.length → ¬ b < l.getD j 0 := by
  induction l with
  | nil => intro j hj; simp at hj
  | cons x xs ih =>
    unfold findFirstAbove at h
    by_cases hb : b < x
    · simp [hb] at h
    · simp [hb] at h
      intro j hj
      cases j with
      | zero => simpa using hb
      | succ j2 => simpa using ih h j2 (by simpa using hj)

theorem ffa_isSome (b : ℚ) (l : List ℚ) (j : Nat) (hj : j < l.length)
    (h : b < l.getD j 0) : ∃ k, findFirstAbove b l = some k := by
  cases hffa : findFirstAbove b l with
  | some k => exact ⟨k, rfl⟩
  | none => exact absurd h (ffa_none_spec b l hffa j hj)

theorem index_greater_ne_some_zero (a : List ℚ) (prec : ℚ) (hp : 0 ≤ prec) :
    index_greater a prec ≠ some 0 := by
  cases a with
  | nil => simp [index_greater]
  | cons item rest =>
    unfold index_greater findFirstAbove
    have : ¬ item + prec < item := by linarith
    simp [this]

/-- Claim C10: `index_greater` with its non-negative tolerance (`1e-8`)
never returns index 0 (the first element cannot exceed itself plus the
tolerance), hence the Python truthiness guard `if idx:` in
`FDC.compute_delta` behaves exactly like `if idx is not None:`, and no
point with a higher-density neighbor within the cutoff is misclassified
as parentless by that guard. -/
theorem claim_C10 :
    (∀ a : List ℚ, index_greater a tolSmall ≠ some 0) ∧
    (∀ cfg : Cfg, compute_delta cfg = compute_delta_noneGuard cfg) := by
  have hzero : ∀ a : List ℚ, index_greater a tolSmall ≠ some 0 := by
    intro a
    exact index_greater_ne_some_zero a tolSmall (by norm_num [tolSmall])
  refine ⟨hzero, ?_⟩
  intro cfg
  have hstep : ∀ acc i, computeDeltaStep cfg acc i = computeDeltaStepNoneGuard cfg acc i := by
    intro acc i
    unfold computeDeltaStep computeDeltaStepNoneGuard
    cases hg : gradIdx cfg i with
    | none => rfl
    | some idx =>
      have : idx ≠ 0 := by
        intro h0
        exact hzero _ (h0 ▸ hg)
      simp [this]
  have hfold : ∀ (L : List Nat) acc,
      L.foldl (computeDeltaStep cfg) acc = L.foldl (computeDeltaStepNoneGuard cfg) acc := by
    intro L
    induction L with
    | nil => intro acc; rfl
    | cons x xs ih => intro acc; simp only [List.foldl_cons, hstep, ih]
  unfold compute_delta compute_delta_noneGuard
  simp only [hfold]

/-! ### Pointwise characterization of `compute_delta` -/

theorem computeDeltaStep_lengths (cfg : Cfg) (acc : GradAcc) (i : Nat) :
    (computeDeltaStep cfg acc i).nnDelta.length = acc.nnDelta.length ∧
    (computeDeltaStep cfg acc i).delta.length = acc.delta.length := by
  unfold computeDeltaStep
  cases gradIdx cfg i with
  | none => simp
  | some idx =>
    by_cases h0 : idx = 0 <;> simp [h0]

theorem computeDeltaStep_frame (cfg : Cfg) (acc : GradAcc) (i j : Nat)
    (h : i ≠ j) :
    (computeDeltaStep cfg acc i).nnDelta.getD j 0 = acc.nnDelta.getD j 0 ∧
    (computeDeltaStep cfg acc i).delta.getD j 0 = acc.delta.getD j 0 := by
  unfold computeDeltaStep
  cases gradIdx cfg i with
  | none => simpa using getD_set_of_ne acc.nnDelta i j (-1) 0 h
  | some idx =>
    by_cases h0 : idx = 0
    · simpa [h0] using getD_set_of_ne acc.nnDelta i j (-1) 0 h
    · simp only [h0, if_false]
      exact ⟨getD_set_of_ne _ i j _ 0 h, getD_set_of_ne _ i j _ 0 h⟩

theorem computeDeltaStep_writes (cfg : Cfg) (acc : GradAcc) (i : Nat)
    (hi1 : i < acc.nnDelta.length) (hi2 : i < acc.delta.length) :
    (computeDeltaStep cfg acc i).nnDelta.getD i 0 = gradParent cfg i ∧
    (computeDeltaStep cfg acc i).delta.getD i 0 =
      (gradDeltaWrite cfg i).getD (acc.delta.getD i 0) := by
  unfold computeDeltaStep gradParent gradDeltaWrite
  cases hg : gradIdx cfg i with
  | none => simpa using getD_set_self acc.nnDelta i (-1) 0 hi1
  | some idx =>
    cases idx with
    | zero => simpa using getD_set_self acc.nnDelta i (-1) 0 hi1
    | succ k =>
      simp only [Nat.succ_ne_zero, if_false]
      exact ⟨getD_set_self _ i _ 0 hi1, getD_set_self _ i _ 0 hi2⟩

theorem foldl_computeDeltaStep_frame (cfg : Cfg) (L : List Nat) (acc : GradAcc)
    (j : Nat) (hj : j ∉ L) :
    (L.foldl (computeDeltaStep cfg) acc).nnDelta.getD j 0 = acc.nnDelta.getD j 0 ∧
    (L.foldl (computeDeltaStep cfg) acc).delta.getD j 0 = acc.delta.getD j 0 := by
  induction L generalizing acc with
  | nil => exact ⟨rfl, rfl⟩
  | cons x xs ih =>
    have hx : x ≠ j := fun h => hj (h ▸ List.mem_cons_self x xs)
    have hxs : j ∉ xs := fun h => hj (List.mem_cons_of_mem x h)
    obtain ⟨h1, h2⟩ := computeDeltaStep_frame cfg acc x j hx
    obtain ⟨h3, h4⟩ := ih (computeDeltaStep cfg acc x) hxs
    exact ⟨by rw [List.foldl_cons, h3, h1], by rw [List.foldl_cons, h4, h2]⟩

theorem foldl_computeDeltaStep_lengths (cfg : Cfg) (L : List Nat) (acc : GradAcc) :
    (L.foldl (computeDeltaStep cfg) acc).nnDelta.length = acc.nnDelta.length ∧
    (L.foldl (computeDeltaStep cfg) acc).delta.length = acc.delta.length := by
  induction L generalizing acc with
  | nil => exact ⟨rfl, rfl⟩
  | cons x xs ih =>
    obtain ⟨h1, h2⟩ := computeDeltaStep_lengths cfg acc x
    obtain ⟨h3, h4⟩ := ih (computeDeltaStep cfg acc x)
    exact ⟨by rw [List.foldl_cons, h3, h1], by rw [List.foldl_cons, h4, h2]⟩

theorem foldl_computeDeltaStep_at (cfg : Cfg) (L : List Nat) (acc : GradAcc)
    (i : Nat) (hmem : i ∈ L) (hnd : L.Nodup)
    (hi1 : i < acc.nnDelta.length) (hi2 : i < acc.delta.length) :
    (L.foldl (computeDeltaStep cfg) acc).nnDelta.getD i 0 = gradParent cfg i ∧
    (L.foldl (computeDeltaStep cfg) acc).delta.getD i 0 =
      (gradDeltaWrite cfg i).getD (acc.delta.getD i 0) := by
  induction L generalizing acc with
  | nil => simp at hmem
  | cons x xs ih =>
    rcases List.mem_cons.mp hmem with hx | hxs
    · subst hx
      have hnotin : i ∉ xs := (List.nodup_cons.mp hnd).1
      obtain ⟨hw1, hw2⟩ := computeDeltaStep_writes cfg acc i hi1 hi2
      obtain ⟨hf1, hf2⟩ := foldl_computeDeltaStep_frame cfg xs (computeDeltaStep cfg acc i) i hnotin
      exact ⟨by rw [List.foldl_cons, hf1, hw1], by rw [List.foldl_cons, hf2, hw2]⟩
    · have hnd2 : xs.Nodup := (List.nodup_cons.mp hnd).2
      have hne : x ≠ i := by
        intro h
        exact (List.nodup_cons.mp hnd).1 (h ▸ hxs)
      obtain ⟨hl1, hl2⟩ := computeDeltaStep_lengths cfg acc x
      obtain ⟨hfr1, hfr2⟩ := computeDeltaStep_frame cfg acc x i hne
      obtain ⟨hh1, hh2⟩ := ih (computeDeltaStep cfg acc x) hxs hnd2 (by omega) (by omega)
      rw [List.foldl_cons]
      exact ⟨hh1, by rw [hh2, hfr2]⟩

theorem compute_delta_fst (cfg : Cfg) :
    (compute_delta cfg).1 = (List.range cfg.n).foldl (computeDeltaStep cfg)
      ⟨List.replicate cfg.n cfg.maxdist, List.replicate cfg.n 1,
        List.replicate cfg.n []⟩ := rfl

theorem compute_delta_snd (cfg : Cfg) :
    (compute_delta cfg).2 = (List.range cfg.n).filter
      (fun i => (99 / 100 : ℚ) * cfg.maxdist < (compute_delta cfg).1.delta.getD i 0) := rfl

theorem compute_delta_nnDelta_at (cfg : Cfg) (i : Nat) (hi : i < cfg.n) :
    (compute_delta cfg).1.nnDelta.getD i 0 = gradParent cfg i := by
  rw [compute_delta_fst]
  exact (foldl_computeDeltaStep_at cfg (List.range cfg.n) _ i
    (List.mem_range.mpr hi) (List.nodup_range cfg.n)
    (by simpa using hi) (by simpa using hi)).1

theorem compute_delta_delta_at (cfg : Cfg) (i : Nat) (hi : i < cfg.n) :
    (compute_delta cfg).1.delta.getD i 0 = (gradDeltaWrite cfg i).getD cfg.maxdist := by
  rw [compute_delta_fst]
  have := (foldl_computeDeltaStep_at cfg (List.range cfg.n)
    ⟨List.replicate cfg.n cfg.maxdist, List.replicate cfg.n 1,
      List.replicate cfg.n []⟩ i
    (List.mem_range.mpr hi) (List.nodup_range cfg.n)
    (by simpa using hi) (by simpa using hi)).2
  rwa [show (⟨List.replicate cfg.n cfg.maxdist, List.replicate cfg.n 1,
      List.replicate cfg.n []⟩ : GradAcc).delta = List.replicate cfg.n cfg.maxdist from rfl,
    getD_replicate cfg.n i cfg.maxdist 0 hi] at this

theorem getD_zero_take {α : Type} (l : List α) (m : Nat) (d : α)
    (hm : 0 < m) (hl : 0 < l.length) : (l.take m).getD 0 d = l.getD 0 d := by
  cases l with
  | nil => simp at hl
  | cons x xs =>
    cases m with
    | zero => omega
    | succ m2 => rfl

theorem gradVals_getD (cfg : Cfg) (i k : Nat) (hk : k < (nhRow cfg i).length) :
    (gradVals cfg i).getD k 0 = cfg.rho.getD ((nhRow cfg i).getD k 0) 0 :=
  getD_map_rho _ _ k hk

theorem gradVals_length (cfg : Cfg) (i : Nat) :
    (gradVals cfg i).length = (nhRow cfg i).length := List.length_map _ _

theorem gradVals_zero (cfg : Cfg) (i : Nat)
    (hself : (cfg.nn.getD i []).getD 0 0 = i)
    (hlen : 0 < (cfg.nn.getD i []).length) (hnh : 0 < cfg.nh_size) :
    (gradVals cfg i).getD 0 0 = cfg.rho.getD i 0 := by
  have hrl : 0 < (nhRow cfg i).length := by
    unfold nhRow
    rw [List.length_take]
    omega
  rw [gradVals_getD cfg i 0 hrl]
  unfold nhRow
  rw [getD_zero_take _ _ _ hnh hlen, hself]

/-- `index_greater` on the row of `i`, as `findFirstAbove` with the bound
`rho[i] + tol`. -/
theorem gradIdx_eq_ffa (cfg : Cfg) (i : Nat)
    (hself : (cfg.nn.getD i []).getD 0 0 = i)
    (hlen : 0 < (cfg.nn.getD i []).length) (hnh : 0 < cfg.nh_size) :
    gradIdx cfg i =
      findFirstAbove (cfg.rho.getD i 0 + tolSmall) (gradVals cfg i) := by
  have hrl : 0 < (nhRow cfg i).length := by
    unfold nhRow
    rw [List.length_take]
    omega
  have hvl : 0 < (gradVals cfg i).length := by rw [gradVals_length]; exact hrl
  unfold gradIdx index_greater
  cases hv : gradVals cfg i with
  | nil => rw [hv] at hvl; simp at hvl
  | cons item rest =>
    have h0 : item = cfg.rho.getD i 0 := by
      have := gradVals_zero cfg i hself hlen hnh
      rw [hv] at this
      simpa using this
    rw [h0]

/-- Claim C2: for every point `i`, the builder scans `nn[i][1:nh_size]`
in neighbor order; the first entry `m` with `rho[m] > rho[i] + 1e-8`
becomes the parent `nn_delta[i]`, and `delta[i]` is set to the
precomputed distance `nn_dist[i][pos(m)]`; when no entry qualifies,
`nn_delta[i] = -1` and `delta[i]` keeps the sentinel `maxdist`. -/
theorem claim_C2 (cfg : Cfg) (i : Nat) (hi : i < cfg.n)
    (hself : (cfg.nn.getD i []).getD 0 0 = i)
    (hlen : 0 < (cfg.nn.getD i []).length) (hnh : 0 < cfg.nh_size) :
    (∀ k, 0 < k → k < (nhRow cfg i).length →
       cfg.rho.getD i 0 + tolSmall < cfg.rho.getD ((nhRow cfg i).getD k 0) 0 →
       (∀ j, 0 < j → j < k →
         cfg.rho.getD ((nhRow cfg i).getD j 0) 0 ≤ cfg.rho.getD i 0 + tolSmall) →
       (compute_delta cfg).1.nnDelta.getD i 0 = Int.ofNat ((nhRow cfg i).getD k 0) ∧
       (compute_delta cfg).1.delta.getD i 0 = (cfg.nnDist.getD i []).getD k 0) ∧
    ((∀ k, 0 < k → k < (nhRow cfg i).length →
       cfg.rho.getD ((nhRow cfg i).getD k 0) 0 ≤ cfg.rho.getD i 0 + tolSmall) →
       (compute_delta cfg).1.nnDelta.getD i 0 = -1 ∧
       (compute_delta cfg).1.delta.getD i 0 = cfg.maxdist) := by
  have hffa := gradIdx_eq_ffa cfg i hself hlen hnh
  have hzero : ¬ (cfg.rho.getD i 0 + tolSmall < (gradVals cfg i).getD 0 0) := by
    rw [gradVals_zero cfg i hself hlen hnh]
    have : (0 : ℚ) < tolSmall := by norm_num [tolSmall]
    linarith
  constructor
  · intro k hk0 hkl hgt hleast
    have hsome : ∃ k2, findFirstAbove (cfg.rho.getD i 0 + tolSmall) (gradVals cfg i) = some k2 := by
      apply ffa_isSome _ _ k (by rw [gradVals_length]; exact hkl)
      rw [gradVals_getD cfg i k hkl]
      exact hgt
    obtain ⟨k2, hk2⟩ := hsome
    obtain ⟨hspec1, hspec2⟩ := ffa_some_spec _ _ _ hk2
    have hk2l := ffa_some_lt_length _ _ _ hk2
    have hk20 : 0 < k2 := by
      rcases Nat.eq_zero_or_pos k2 with h | h
      · rw [h] at hspec1; exact absurd hspec1 hzero
      · exact h
    have hkk : k2 = k := by
      rcases Nat.lt_trichotomy k2 k with h | h | h
      · exfalso
        have := hleast k2 hk20 h
        rw [gradVals_getD cfg i k2 (by rw [gradVals_length] at hk2l; exact hk2l)] at hspec1
        linarith
      · exact h
      · exfalso
        apply hspec2 k h
        rw [gradVals_getD cfg i k hkl]
        exact hgt
    subst hkk
    obtain ⟨k3, rfl⟩ := Nat.exists_eq_succ_of_ne_zero (by omega : k2 ≠ 0)
    have hgi : gradIdx cfg i = some (k3 + 1) := by rw [hffa, hk2]
    constructor
    · rw [compute_delta_nnDelta_at cfg i hi]
      unfold gradParent
      rw [hgi]
    · rw [compute_delta_delta_at cfg i hi]
      unfold gradDeltaWrite
      rw [hgi]
      rfl
  · intro hall
    have hnone : findFirstAbove (cfg.rho.getD i 0 + tolSmall) (gradVals cfg i) = none := by
      cases hc : findFirstAbove (cfg.rho.getD i 0 + tolSmall) (gradVals cfg i) with
      | none => rfl
      | some k2 =>
        exfalso
        obtain ⟨hspec1, _⟩ := ffa_some_spec _ _ _ hc
        have hk2l := ffa_some_lt_length _ _ _ hc
        rw [gradVals_length] at hk2l
        have hk20 : 0 < k2 := by
          rcases Nat.eq_zero_or_pos k2 with h | h
          · rw [h] at hspec1; exact absurd hspec1 hzero
          · exact h
        have := hall k2 hk20 hk2l
        rw [gradVals_getD cfg i k2 hk2l] at hspec1
        linarith
    have hgi : gradIdx cfg i = none := by rw [hffa, hnone]
    constructor
    · rw [compute_delta_nnDelta_at cfg i hi]
      unfold gradParent
      rw [hgi]
    · rw [compute_delta_delta_at cfg i hi]
      unfold gradDeltaWrite
      rw [hgi]
      rfl

/-- Claim C2 witness: point 1 of the 5-point dataset takes its single
in-cutoff neighbor, point 0, as parent at the precomputed distance 1. -/
theorem claim_C2_witness :
    (1 < cfg5.n ∧ (cfg5.nn.getD 1 []).getD 0 0 = 1 ∧
      0 < (cfg5.nn.getD 1 []).length ∧ 0 < cfg5.nh_size) ∧
    ((compute_delta cfg5).1.nnDelta.getD 1 0 = Int.ofNat 0 ∧
      (compute_delta cfg5).1.delta.getD 1 0 = 1) := by
  refine ⟨⟨by decide, by decide, by decide, by decide⟩, ?_⟩
  have h := (claim_C2 cfg5 1 (by decide) (by decide) (by decide) (by decide)).1
    1 (by decide) (by decide)
    (by show (8 : ℚ) + tolSmall < 10; norm_num [tolSmall])
    (by intro j h1 h2; omega)
  simpa using h

theorem gradParent_of_none (cfg : Cfg) (i : Nat) (h : gradIdx cfg i = none) :
    gradParent cfg i = -1 := by
  unfold gradParent; rw [h]

theorem gradParent_of_zero (cfg : Cfg) (i : Nat) (h : gradIdx cfg i = some 0) :
    gradParent cfg i = -1 := by
  unfold gradParent; rw [h]

theorem gradParent_of_succ (cfg : Cfg) (i k : Nat)
    (h : gradIdx cfg i = some (k + 1)) :
    gradParent cfg i = Int.ofNat ((nhRow cfg i).getD (k + 1) 0) := by
  unfold gradParent; rw [h]

theorem gradDeltaWrite_of_none (cfg : Cfg) (i : Nat) (h : gradIdx cfg i = none) :
    gradDeltaWrite cfg i = none := by
  unfold gradDeltaWrite; rw [h]

theorem gradDeltaWrite_of_zero (cfg : Cfg) (i : Nat) (h : gradIdx cfg i = some 0) :
    gradDeltaWrite cfg i = none := by
  unfold gradDeltaWrite; rw [h]

theorem gradDeltaWrite_of_succ (cfg : Cfg) (i k : Nat)
    (h : gradIdx cfg i = some (k + 1)) :
    gradDeltaWrite cfg i = some ((cfg.nnDist.getD i []).getD (k + 1) 0) := by
  unfold gradDeltaWrite; rw [h]

theorem gradIdx_some_lt_length (cfg : Cfg) (i k : Nat)
    (h : gradIdx cfg i = some k) : k < (nhRow cfg i).length := by
  unfold gradIdx index_greater at h
  cases hv : gradVals cfg i with
  | nil => rw [hv] at h; simp at h
  | cons a b =>
    rw [hv] at h
    have := ffa_some_lt_length _ _ _ h
    rw [← hv, gradVals_length] at this
    exact this

/-- Claim C7 (amended): a point is placed in the candidate-center set iff
its `delta` exceeds 99% of the sentinel `maxdist`; when the sentinel is
positive and every recorded neighbor distance stays within 99% of it,
this set coincides exactly with the set of parentless points
(`nn_delta[i] = -1`).  (Without the distance bound the coincidence can
fail: see the counterexample.) -/
theorem claim_C7 (cfg : Cfg)
    (hmax : 0 < cfg.maxdist)
    (hdist : ∀ i k, i < cfg.n → 0 < k → k < (nhRow cfg i).length →
      (cfg.nnDist.getD i []).getD k 0 ≤ (99 / 100 : ℚ) * cfg.maxdist) :
    (∀ i, i ∈ (compute_delta cfg).2 ↔
        i < cfg.n ∧ (99 / 100 : ℚ) * cfg.maxdist < (compute_delta cfg).1.delta.getD i 0) ∧
    (∀ i, i < cfg.n →
        (i ∈ (compute_delta cfg).2 ↔ (compute_delta cfg).1.nnDelta.getD i 0 = -1)) := by
  have hmem : ∀ i, i ∈ (compute_delta cfg).2 ↔
      i < cfg.n ∧ (99 / 100 : ℚ) * cfg.maxdist < (compute_delta cfg).1.delta.getD i 0 := by
    intro i
    rw [compute_delta_snd]
    simp [List.mem_filter, List.mem_range]
  refine ⟨hmem, ?_⟩
  intro i hi
  rw [hmem i, compute_delta_nnDelta_at cfg i hi, compute_delta_delta_at cfg i hi]
  cases hgi : gradIdx cfg i with
  | none =>
    rw [gradParent_of_none cfg i hgi, gradDeltaWrite_of_none cfg i hgi]
    simp only [Option.getD_none]
    constructor
    · intro _; trivial
    · intro _
      refine ⟨hi, ?_⟩
      nlinarith
  | some idx =>
    cases idx with
    | zero =>
      rw [gradParent_of_zero cfg i hgi, gradDeltaWrite_of_zero cfg i hgi]
      simp only [Option.getD_none]
      constructor
      · intro _; trivial
      · intro _
        refine ⟨hi, ?_⟩
        nlinarith
    | succ k =>
      rw [gradParent_of_succ cfg i k hgi, gradDeltaWrite_of_succ cfg i k hgi]
      simp only [Option.getD_some]
      have hkl : k + 1 < (nhRow cfg i).length := gradIdx_some_lt_length cfg i (k + 1) hgi
      have hle := hdist i (k + 1) hi (Nat.succ_pos k) hkl
      constructor
      · intro h
        exfalso
        linarith [h.2]
      · intro h
        exfalso
        have : (0 : ℤ) ≤ Int.ofNat ((nhRow cfg i).getD (k + 1) 0) := Int.ofNat_nonneg _
        omega

/-- Claim C7 counterexample: in the 2-point dataset `[[0], [1]]`, with
sentinel exactly the extent norm 1, point 0 has a strictly
higher-density neighbor within the cutoff (so it has a parent,
`nn_delta[0] = 1`), yet its recorded delta reaches within 1% of the
sentinel and it is placed in the candidate-center set; the candidate set
is not the set of parentless points. -/
theorem claim_C7_counterexample :
    IsMaxdist [[0], [1]] cfg7.maxdist ∧
    cfg7.rho.getD 0 0 + tolSmall < cfg7.rho.getD 1 0 ∧
    (compute_delta cfg7).1.nnDelta.getD 0 0 = 1 ∧
    0 ∈ (compute_delta cfg7).2 := by
  have hgi : gradIdx cfg7 0 = some 1 := by
    have : gradVals cfg7 0 = [0, 1] := rfl
    unfold gradIdx index_greater
    rw [this]
    norm_num [findFirstAbove, tolSmall]
  have hnn : (compute_delta cfg7).1.nnDelta.getD 0 0 = 1 := by
    rw [compute_delta_nnDelta_at cfg7 0 (by decide)]
    unfold gradParent
    rw [hgi]
    rfl
  have hdelta : (compute_delta cfg7).1.delta.getD 0 0 = 1 := by
    rw [compute_delta_delta_at cfg7 0 (by decide)]
    unfold gradDeltaWrite
    rw [hgi]
    rfl
  refine ⟨?_, ?_, hnn, ?_⟩
  · constructor
    · norm_num [cfg7]
    · show (1 : ℚ) * 1 = sqNorm (extentsOf [[0], [1]])
      norm_num [sqNorm, extentsOf, listMaxQ, listMinQ,
        show List.range 1 = [0] from rfl]
  · show (0 : ℚ) + tolSmall < 1
    norm_num [tolSmall]
  · rw [compute_delta_snd]
    rw [List.mem_filter]
    refine ⟨by decide, ?_⟩
    rw [decide_eq_true_eq, hdelta]
    show (99 / 100 : ℚ) * 1 < 1
    norm_num

/-- Claim C7 witness (for the amended theorem): on the 5-point dataset
every recorded neighbor distance is at most 99% of the sentinel `21/5`,
and the candidate set coincides with the parentless points, e.g. point 0
(parentless, a candidate) and point 1 (has a parent, not a candidate). -/
theorem claim_C7_witness :
    (0 < cfg5.maxdist) ∧
    ((0 ∈ (compute_delta cfg5).2 ↔ (compute_delta cfg5).1.nnDelta.getD 0 0 = -1) ∧
     (1 ∈ (compute_delta cfg5).2 ↔ (compute_delta cfg5).1.nnDelta.getD 1 0 = -1)) := by
  have hmax : (0 : ℚ) < cfg5.maxdist := by show (0 : ℚ) < 21 / 5; norm_num
  have hdist : ∀ i k, i < cfg5.n → 0 < k → k < (nhRow cfg5 i).length →
      (cfg5.nnDist.getD i []).getD k 0 ≤ (99 / 100 : ℚ) * cfg5.maxdist := by
    intro i k hi hk0 hkl
    have hi5 : i < 5 := hi
    interval_cases i
    · have hl : (nhRow cfg5 0).length = 2 := rfl
      rw [hl] at hkl
      have : k = 1 := by omega
      subst this
      show (1 : ℚ) ≤ 99 / 100 * (21 / 5); norm_num
    · have hl : (nhRow cfg5 1).length = 2 := rfl
      rw [hl] at hkl
      have : k = 1 := by omega
      subst this
      show (1 : ℚ) ≤ 99 / 100 * (21 / 5); norm_num
    · have hl : (nhRow cfg5 2).length = 2 := rfl
      rw [hl] at hkl
      have : k = 1 := by omega
      subst this
      show (11 / 10 : ℚ) ≤ 99 / 100 * (21 / 5); norm_num
    · have hl : (nhRow cfg5 3).length = 2 := rfl
      rw [hl] at hkl
      have : k = 1 := by omega
      subst this
      show (9 / 10 : ℚ) ≤ 99 / 100 * (21 / 5); norm_num
    · have hl : (nhRow cfg5 4).length = 2 := rfl
      rw [hl] at hkl
      have : k = 1 := by omega
      subst this
      show (9 / 10 : ℚ) ≤ 99 / 100 * (21 / 5); norm_num
  have h := (claim_C7 cfg5 hmax hdist).2
  exact ⟨hmax, h 0 (by decide), h 1 (by decide)⟩

/-- Inversion principle for one candidate step of the stability pass. -/
theorem passStep_some_inv (cfg : Cfg) (fuel : Nat) (labels : List ℤ)
    (centersIn : List Nat) (th : ℚ) (acc : PassAcc) (idx : Nat) (acc2 : PassAcc)
    (h : passStep cfg fuel labels centersIn th acc idx = some acc2) :
    ∃ NH im, passNH cfg fuel labels idx th = some NH ∧
      idxMaxOf cfg centersIn labels NH = some im ∧
      (((cfg.rho.getD idx 0 < cfg.rho.getD im 0 ∧ idx ≠ im) ∧
          acc2 = demoteAcc cfg acc idx im) ∨
        (¬ (cfg.rho.getD idx 0 < cfg.rho.getD im 0 ∧ idx ≠ im) ∧
          acc2 = keepAcc acc idx)) := by
  unfold passStep at h
  cases hNH : passNH cfg fuel labels idx th with
  | none => rw [hNH] at h; simp at h
  | some NH =>
    simp only [hNH] at h
    cases hIM : idxMaxOf cfg centersIn labels NH with
    | none => rw [hIM] at h; simp at h
    | some im =>
      simp only [hIM] at h
      refine ⟨NH, im, rfl, hIM, ?_⟩
      by_cases hcond : cfg.rho.getD idx 0 < cfg.rho.getD im 0 ∧ idx ≠ im
      · rw [if_pos hcond] at h
        injection h with h2
        exact Or.inl ⟨hcond, h2.symm⟩
      · rw [if_neg hcond] at h
        injection h with h2
        exact Or.inr ⟨hcond, h2.symm⟩

/-- Computation rule for one candidate step given its sub-results. -/
theorem passStep_eq (cfg : Cfg) (fuel : Nat) (labels : List ℤ)
    (centersIn : List Nat) (th : ℚ) (acc : PassAcc) (idx : Nat)
    (NH : List Nat) (im : Nat)
    (hNH : passNH cfg fuel labels idx th = some NH)
    (hIM : idxMaxOf cfg centersIn labels NH = some im) :
    passStep cfg fuel labels centersIn th acc idx =
      if cfg.rho.getD idx 0 < cfg.rho.getD im 0 ∧ idx ≠ im
      then some (demoteAcc cfg acc idx im) else some (keepAcc acc idx) := by
  unfold passStep
  simp only [hNH, hIM]

theorem passLoop_densityInv (cfg : Cfg) (fuel : Nat) (labels : List ℤ)
    (centersIn : List Nat) (th : ℚ) :
    ∀ todo acc acc2, passLoop cfg fuel labels centersIn th todo acc = some acc2 →
    DensityInv cfg acc.nnDelta → DensityInv cfg acc2.nnDelta := by
  intro todo
  induction todo with
  | nil =>
    intro acc acc2 h hinv
    unfold passLoop at h
    cases h
    exact hinv
  | cons idx rest ih =>
    intro acc acc2 h hinv
    unfold passLoop at h
    cases hs : passStep cfg fuel labels centersIn th acc idx with
    | none => rw [hs] at h; simp at h
    | some acc1 =>
      simp only [hs] at h
      obtain ⟨NH, im, hNH, hIM, hcases⟩ := passStep_some_inv cfg fuel labels centersIn th acc idx acc1 hs
      rcases hcases with ⟨hcond, rfl⟩ | ⟨hcond, rfl⟩
      · apply ih _ _ h
        intro i hi hp
        unfold demoteAcc at hp ⊢
        by_cases hii : idx = i
        · subst hii
          by_cases hlen : idx < acc.nnDelta.length
          · rw [getD_set_self _ _ _ _ hlen]
            simpa using hcond.1
          · rw [List.set_eq_of_length_le (le_of_not_lt hlen)] at hp ⊢
            exact hinv _ hi hp
        · rw [getD_set_of_ne _ _ _ _ _ hii] at hp ⊢
          exact hinv _ hi hp
      · apply ih _ _ h
        exact hinv

/-- Claim C5: for all points with a parent, the parent has strictly
higher density; established by the gradient-graph builder (which demands
an excess above `1e-8`) and preserved by every stability pass (demotion
installs a strictly denser center as the new parent). -/
theorem claim_C5 (cfg : Cfg) :
    ((∀ i, i < cfg.n → (cfg.nn.getD i []).getD 0 0 = i ∧ 0 < (cfg.nn.getD i []).length) →
      0 < cfg.nh_size → DensityInv cfg (compute_delta cfg).1.nnDelta) ∧
    (∀ fuel s th c fp s2, check_cluster_stability cfg fuel s th = some (c, fp, s2) →
      DensityInv cfg s.nnDelta → DensityInv cfg s2.nnDelta) := by
  constructor
  · intro hwf hnh i hi hp
    rw [compute_delta_nnDelta_at cfg i hi] at hp ⊢
    obtain ⟨hself, hlen⟩ := hwf i hi
    cases hgi : gradIdx cfg i with
    | none => rw [gradParent_of_none cfg i hgi] at hp; exact absurd hp (by decide)
    | some idx =>
      cases idx with
      | zero => rw [gradParent_of_zero cfg i hgi] at hp; exact absurd hp (by decide)
      | succ k =>
        rw [gradParent_of_succ cfg i k hgi]
        have hffa : findFirstAbove (cfg.rho.getD i 0 + tolSmall) (gradVals cfg i) = some (k + 1) := by
          rw [← gradIdx_eq_ffa cfg i hself hlen hnh]
          exact hgi
        obtain ⟨hgt, _⟩ := ffa_some_spec _ _ _ hffa
        have hkl : k + 1 < (nhRow cfg i).length := gradIdx_some_lt_length cfg i (k + 1) hgi
        rw [gradVals_getD cfg i (k + 1) hkl] at hgt
        have htol : (0 : ℚ) < tolSmall := by norm_num [tolSmall]
        have htn : (Int.ofNat ((nhRow cfg i).getD (k + 1) 0)).toNat =
            (nhRow cfg i).getD (k + 1) 0 := Int.toNat_ofNat _
        rw [htn]
        linarith
  · intro fuel s th c fp s2 h hinv
    unfold check_cluster_stability at h
    cases hp : passLoop cfg fuel s.labels s.centers th s.centers
        ⟨[], 0, s.nnDelta, s.delta, s.graph⟩ with
    | none => rw [hp] at h; simp at h
    | some acc =>
      simp only [hp, Option.some.injEq, Prod.mk.injEq] at h
      rw [← h.2.2]
      exact passLoop_densityInv cfg fuel s.labels s.centers th s.centers _ _ hp hinv

/-- Claim C5 witness: the invariant holds for the gradient forest of the
5-point dataset (hypotheses checked concretely). -/
theorem claim_C5_witness :
    ((∀ i, i < cfg5.n → (cfg5.nn.getD i []).getD 0 0 = i ∧ 0 < (cfg5.nn.getD i []).length) ∧
      0 < cfg5.nh_size) ∧
    DensityInv cfg5 (compute_delta cfg5).1.nnDelta := by
  refine ⟨⟨by decide, by decide⟩, ?_⟩
  exact (claim_C5 cfg5).1 (by decide) (by decide)

/-! ### Characterization of `argmaxQ`, `npUnique`, `pyGetNat`, `idxMaxOf` -/

theorem argmaxAux_spec (l : List ℚ) : ∀ (bestv : ℚ) (i best : Nat),
    (argmaxAux l bestv i best = best ∧ ∀ j, j < l.length → l.getD j 0 ≤ bestv) ∨
    (∃ j, j < l.length ∧ argmaxAux l bestv i best = i + j ∧ bestv < l.getD j 0 ∧
      ∀ j2, j2 < l.length → l.getD j2 0 ≤ l.getD j 0) := by
  induction l with
  | nil =>
    intro bestv i best
    left
    exact ⟨rfl, fun j hj => absurd hj (by simp)⟩
  | cons x xs ih =>
    intro bestv i best
    unfold argmaxAux
    by_cases hb : bestv < x
    · rw [if_pos hb]
      rcases ih x (i + 1) i with ⟨heq, hle⟩ | ⟨j, hj, heq, hlt, hmax⟩
      · right
        refine ⟨0, by simp, by rw [heq]; omega, by simpa using hb, ?_⟩
        intro j2 hj2
        cases j2 with
        | zero => simp
        | succ j3 => simpa using hle j3 (by simpa using hj2)
      · right
        refine ⟨j + 1, by simpa using hj, by rw [heq]; omega, ?_, ?_⟩
        · simpa using lt_trans hb hlt
        · intro j2 hj2
          cases j2 with
          | zero =>
            show x ≤ xs.getD j 0
            exact le_of_lt hlt
          | succ j3 => simpa using hmax j3 (by simpa using hj2)
    · rw [if_neg hb]
      rcases ih bestv (i + 1) best with ⟨heq, hle⟩ | ⟨j, hj, heq, hlt, hmax⟩
      · left
        refine ⟨heq, ?_⟩
        intro j2 hj2
        cases j2 with
        | zero => simpa using le_of_not_lt hb
        | succ j3 => simpa using hle j3 (by simpa using hj2)
      · right
        refine ⟨j + 1, by simpa using hj, by rw [heq]; omega, ?_, ?_⟩
        · simpa using hlt
        · intro j2 hj2
          cases j2 with
          | zero =>
            show x ≤ xs.getD j 0
            exact le_trans (le_of_not_lt hb) (le_of_lt hlt)
          | succ j3 => simpa using hmax j3 (by simpa using hj2)

theorem argmaxQ_some_spec (l : List ℚ) (k : Nat) (h : argmaxQ l = some k) :
    k < l.length ∧ ∀ j, j < l.length → l.getD j 0 ≤ l.getD k 0 := by
  cases l with
  | nil => simp [argmaxQ] at h
  | cons x xs =>
    unfold argmaxQ at h
    injection h with h2
    rcases argmaxAux_spec xs x 1 0 with ⟨heq, hle⟩ | ⟨j, hj, heq, hlt, hmax⟩
    · rw [heq] at h2
      subst h2
      refine ⟨by simp, ?_⟩
      intro j2 hj2
      cases j2 with
      | zero => simp
      | succ j3 => simpa using hle j3 (by simpa using hj2)
    · rw [heq] at h2
      subst h2
      have hk : 1 + j = j + 1 := by omega
      rw [hk]
      refine ⟨by simpa using hj, ?_⟩
      intro j2 hj2
      cases j2 with
      | zero =>
        show x ≤ xs.getD j 0
        exact le_of_lt hlt
      | succ j3 => simpa using hmax j3 (by simpa using hj2)

theorem argmaxQ_isSome (l : List ℚ) (hl : l ≠ []) : ∃ k, argmaxQ l = some k := by
  cases l with
  | nil => exact absurd rfl hl
  | cons x xs => exact ⟨argmaxAux xs x 1 0, rfl⟩

theorem mem_insSorted (x y : ℤ) (l : List ℤ) :
    x ∈ insSorted y l ↔ x = y ∨ x ∈ l := by
  induction l with
  | nil => simp [insSorted]
  | cons z zs ih =>
    unfold insSorted
    by_cases h : y ≤ z
    · rw [if_pos h]
      simp
    · rw [if_neg h]
      simp only [List.mem_cons, ih]
      tauto

theorem mem_sortInts (x : ℤ) (l : List ℤ) : x ∈ sortInts l ↔ x ∈ l := by
  induction l with
  | nil => simp [sortInts]
  | cons y ys ih =>
    show x ∈ insSorted y (sortInts ys) ↔ _
    rw [mem_insSorted, ih]
    simp

theorem mem_npUnique (x : ℤ) (l : List ℤ) : x ∈ npUnique l ↔ x ∈ l := by
  unfold npUnique
  rw [List.mem_dedup, mem_sortInts]

theorem getD_mem {α : Type} (l : List α) (k : Nat) (d : α) (h : k < l.length) :
    l.getD k d ∈ l := by
  induction l generalizing k with
  | nil => simp at h
  | cons x xs ih =>
    cases k with
    | zero => exact List.mem_cons_self x xs
    | succ j => exact List.mem_cons_of_mem x (ih j (by simpa using h))

theorem pyGetNat_nonneg_eq (l : List Nat) (i : ℤ) (h : 0 ≤ i) :
    pyGetNat l i = l.getD i.toNat 0 := by
  unfold pyGetNat pyIdx
  rw [if_neg (by omega)]

theorem pyGetNat_mem_or_zero (l : List Nat) (i : ℤ) :
    pyGetNat l i ∈ l ∨ pyGetNat l i = 0 := by
  unfold pyGetNat
  by_cases h : pyIdx l.length i < l.length
  · exact Or.inl (getD_mem l _ 0 h)
  · right
    rw [List.getD_eq_default]
    omega

/-- What `idxMaxOf` returns: a member of the indexed center list that
attains the maximal density among them. -/
theorem idxMaxOf_some_spec (cfg : Cfg) (centersIn : List Nat) (labels : List ℤ)
    (NH : List Nat) (im : Nat)
    (h : idxMaxOf cfg centersIn labels NH = some im) :
    im ∈ nhLabelCenters centersIn labels NH ∧
    ∀ c ∈ nhLabelCenters centersIn labels NH,
      cfg.rho.getD c 0 ≤ cfg.rho.getD im 0 := by
  unfold idxMaxOf at h
  cases ha : argmaxQ ((nhLabelCenters centersIn labels NH).map
      (fun c => cfg.rho.getD c 0)) with
  | none => rw [ha] at h; simp at h
  | some k =>
    simp only [ha, Option.some.injEq] at h
    subst h
    obtain ⟨hk, hmax⟩ := argmaxQ_some_spec _ _ ha
    rw [List.length_map] at hk
    constructor
    · exact getD_mem _ _ _ hk
    · intro c hc
      obtain ⟨j, hj, hcj⟩ := List.mem_iff_getElem.mp hc
      have hjd : (nhLabelCenters centersIn labels NH).getD j 0 = c := by
        rw [List.getD_eq_getElem?_getD, List.getElem?_eq_getElem hj]
        simpa using hcj
      have := hmax j (by rw [List.length_map]; exact hj)
      rw [getD_map_rho _ _ j hj, getD_map_rho _ _ k hk, hjd] at this
      exact this

/-! ### Structural lemmas about the stability pass -/

theorem demotes_eq (cfg : Cfg) (fuel : Nat) (labels : List ℤ)
    (centersIn : List Nat) (th : ℚ) (idx : Nat) (NH : List Nat) (im : Nat)
    (hNH : passNH cfg fuel labels idx th = some NH)
    (hIM : idxMaxOf cfg centersIn labels NH = some im) :
    demotes cfg fuel labels centersIn th idx =
      decide (cfg.rho.getD idx 0 < cfg.rho.getD im 0 ∧ idx ≠ im) := by
  unfold demotes
  simp only [hNH, hIM]

theorem targetOf_eq (cfg : Cfg) (fuel : Nat) (labels : List ℤ)
    (centersIn : List Nat) (th : ℚ) (idx : Nat) (NH : List Nat) (im : Nat)
    (hNH : passNH cfg fuel labels idx th = some NH)
    (hIM : idxMaxOf cfg centersIn labels NH = some im) :
    targetOf cfg fuel labels centersIn th idx = some im := by
  unfold targetOf
  simp only [hNH]
  exact hIM

theorem demoteAcc_lengths (cfg : Cfg) (acc : PassAcc) (idx im : Nat) :
    (demoteAcc cfg acc idx im).nnDelta.length = acc.nnDelta.length ∧
    (demoteAcc cfg acc idx im).delta.length = acc.delta.length ∧
    (demoteAcc cfg acc idx im).graph.length = acc.graph.length := by
  unfold demoteAcc
  exact ⟨List.length_set _ _ _, List.length_set _ _ _, length_listAppendAt _ _ _⟩

theorem passLoop_lengths (cfg : Cfg) (fuel : Nat) (labels : List ℤ)
    (centersIn : List Nat) (th : ℚ) :
    ∀ todo acc acc2, passLoop cfg fuel labels centersIn th todo acc = some acc2 →
      acc2.nnDelta.length = acc.nnDelta.length ∧
      acc2.delta.length = acc.delta.length ∧
      acc2.graph.length = acc.graph.length := by
  intro todo
  induction todo with
  | nil =>
    intro acc acc2 h
    unfold passLoop at h
    cases h
    exact ⟨rfl, rfl, rfl⟩
  | cons idx rest ih =>
    intro acc acc2 h
    unfold passLoop at h
    cases hs : passStep cfg fuel labels centersIn th acc idx with
    | none => rw [hs] at h; simp at h
    | some acc1 =>
      simp only [hs] at h
      obtain ⟨NH, im, hNH, hIM, hcase⟩ := passStep_some_inv _ _ _ _ _ _ _ _ hs
      obtain ⟨h1, h2, h3⟩ := ih acc1 acc2 h
      rcases hcase with ⟨_, rfl⟩ | ⟨_, rfl⟩
      · obtain ⟨g1, g2, g3⟩ := demoteAcc_lengths cfg acc idx im
        exact ⟨by rw [h1, g1], by rw [h2, g2], by rw [h3, g3]⟩
      · exact ⟨h1, h2, h3⟩

theorem passLoop_graph_mono (cfg : Cfg) (fuel : Nat) (labels : List ℤ)
    (centersIn : List Nat) (th : ℚ) :
    ∀ todo acc acc2, passLoop cfg fuel labels centersIn th todo acc = some acc2 →
      ∀ j x, x ∈ acc.graph.getD j [] → x ∈ acc2.graph.getD j [] := by
  intro todo
  induction todo with
  | nil =>
    intro acc acc2 h j x hx
    unfold passLoop at h
    cases h
    exact hx
  | cons idx rest ih =>
    intro acc acc2 h j x hx
    unfold passLoop at h
    cases hs : passStep cfg fuel labels centersIn th acc idx with
    | none => rw [hs] at h; simp at h
    | some acc1 =>
      simp only [hs] at h
      obtain ⟨NH, im, hNH, hIM, hcase⟩ := passStep_some_inv _ _ _ _ _ _ _ _ hs
      rcases hcase with ⟨_, rfl⟩ | ⟨_, rfl⟩
      · exact ih _ _ h j x (mem_listAppendAt _ _ _ _ _ hx)
      · exact ih _ _ h j x hx

theorem passLoop_nFP_mono (cfg : Cfg) (fuel : Nat) (labels : List ℤ)
    (centersIn : List Nat) (th : ℚ) :
    ∀ todo acc acc2, passLoop cfg fuel labels centersIn th todo acc = some acc2 →
      acc.nFP ≤ acc2.nFP := by
  intro todo
  induction todo with
  | nil =>
    intro acc acc2 h
    unfold passLoop at h
    cases h
    exact le_refl _
  | cons idx rest ih =>
    intro acc acc2 h
    unfold passLoop at h
    cases hs : passStep cfg fuel labels centersIn th acc idx with
    | none => rw [hs] at h; simp at h
    | some acc1 =>
      simp only [hs] at h
      obtain ⟨NH, im, hNH, hIM, hcase⟩ := passStep_some_inv _ _ _ _ _ _ _ _ hs
      rcases hcase with ⟨_, rfl⟩ | ⟨_, rfl⟩
      · have := ih _ _ h
        simp only [demoteAcc] at this
        omega
      · have := ih _ _ h
        simpa [keepAcc] using this

/-- A pass that produces no false positive mutates nothing and keeps
every candidate, in order. -/
theorem passLoop_fp_eq (cfg : Cfg) (fuel : Nat) (labels : List ℤ)
    (centersIn : List Nat) (th : ℚ) :
    ∀ todo acc acc2, passLoop cfg fuel labels centersIn th todo acc = some acc2 →
      acc2.nFP = acc.nFP →
      acc2 = ⟨acc.trueCenters ++ todo, acc.nFP, acc.nnDelta, acc.delta, acc.graph⟩ := by
  intro todo
  induction todo with
  | nil =>
    intro acc acc2 h hfp
    unfold passLoop at h
    cases h
    cases acc
    simp [← hfp]
  | cons idx rest ih =>
    intro acc acc2 h hfp
    unfold passLoop at h
    cases hs : passStep cfg fuel labels centersIn th acc idx with
    | none => rw [hs] at h; simp at h
    | some acc1 =>
      simp only [hs] at h
      obtain ⟨NH, im, hNH, hIM, hcase⟩ := passStep_some_inv _ _ _ _ _ _ _ _ hs
      rcases hcase with ⟨_, rfl⟩ | ⟨_, rfl⟩
      · exfalso
        have := passLoop_nFP_mono cfg fuel labels centersIn th rest _ _ h
        simp only [demoteAcc] at this
        omega
      · have := ih _ _ h (by simpa [keepAcc] using hfp)
        rw [this]
        simp [keepAcc]

/-- Every pass appends to the accepted list a subsequence of the
candidates it scanned. -/
theorem passLoop_trueCenters_append (cfg : Cfg) (fuel : Nat) (labels : List ℤ)
    (centersIn : List Nat) (th : ℚ) :
    ∀ todo acc acc2, passLoop cfg fuel labels centersIn th todo acc = some acc2 →
      ∃ l, acc2.trueCenters = acc.trueCenters ++ l ∧ l.Sublist todo := by
  intro todo
  induction todo with
  | nil =>
    intro acc acc2 h
    unfold passLoop at h
    cases h
    exact ⟨[], by simp, List.Sublist.refl _⟩
  | cons idx rest ih =>
    intro acc acc2 h
    unfold passLoop at h
    cases hs : passStep cfg fuel labels centersIn th acc idx with
    | none => rw [hs] at h; simp at h
    | some acc1 =>
      simp only [hs] at h
      obtain ⟨NH, im, hNH, hIM, hcase⟩ := passStep_some_inv _ _ _ _ _ _ _ _ hs
      rcases hcase with ⟨_, rfl⟩ | ⟨_, rfl⟩
      · obtain ⟨l, hl, hsub⟩ := ih _ _ h
        exact ⟨l, hl, List.Sublist.cons idx hsub⟩
      · obtain ⟨l, hl, hsub⟩ := ih _ _ h
        refine ⟨idx :: l, ?_, List.Sublist.cons₂ idx hsub⟩
        rw [hl]
        unfold keepAcc
        simp

/-- Pointwise characterization of a full stability pass: the accepted
list extends by the non-demoted candidates in order, the false-positive
count grows by the number of demoted candidates, each demoted
candidate's parent and delta entries hold its target and the direct
feature-space distance, the demoted candidate joins its target's
children, and every entry of a never-demoted index is untouched. -/
theorem passLoop_char (cfg : Cfg) (fuel : Nat) (labels : List ℤ)
    (centersIn : List Nat) (th : ℚ) :
    ∀ todo acc acc2, passLoop cfg fuel labels centersIn th todo acc = some acc2 →
    todo.Nodup →
    (∀ x ∈ todo, x < acc.nnDelta.length ∧ x < acc.delta.length) →
    (acc2.trueCenters = acc.trueCenters ++
        todo.filter (fun i => ! demotes cfg fuel labels centersIn th i)) ∧
    (acc2.nFP = acc.nFP +
        (todo.filter (fun i => demotes cfg fuel labels centersIn th i)).length) ∧
    (∀ idx ∈ todo, demotes cfg fuel labels centersIn th idx = true →
      ∀ im, targetOf cfg fuel labels centersIn th idx = some im →
        acc2.nnDelta.getD idx 0 = Int.ofNat im ∧
        acc2.delta.getD idx 0 = cfg.edist im idx ∧
        (im < acc.graph.length → idx ∈ acc2.graph.getD im [])) ∧
    (∀ j, (∀ idx ∈ todo, demotes cfg fuel labels centersIn th idx = true → j ≠ idx) →
        acc2.nnDelta.getD j 0 = acc.nnDelta.getD j 0 ∧
        acc2.delta.getD j 0 = acc.delta.getD j 0) := by
  intro todo
  induction todo with
  | nil =>
    intro acc acc2 h _ _
    unfold passLoop at h
    cases h
    refine ⟨by simp, by simp, by simp, fun j _ => ⟨rfl, rfl⟩⟩
  | cons idx rest ih =>
    intro acc acc2 h hnd hbd
    unfold passLoop at h
    cases hs : passStep cfg fuel labels centersIn th acc idx with
    | none => rw [hs] at h; simp at h
    | some acc1 =>
      simp only [hs] at h
      obtain ⟨NH, im0, hNH, hIM, hcase⟩ := passStep_some_inv _ _ _ _ _ _ _ _ hs
      have hdem := demotes_eq cfg fuel labels centersIn th idx NH im0 hNH hIM
      have htgt := targetOf_eq cfg fuel labels centersIn th idx NH im0 hNH hIM
      have hndr : rest.Nodup := (List.nodup_cons.mp hnd).2
      have hnin : idx ∉ rest := (List.nodup_cons.mp hnd).1
      rcases hcase with ⟨hcond, rfl⟩ | ⟨hcond, rfl⟩
      · have hdt : demotes cfg fuel labels centersIn th idx = true := by
          rw [hdem]; exact decide_eq_true hcond
        have hbd1 : ∀ x ∈ rest, x < (demoteAcc cfg acc idx im0).nnDelta.length ∧
            x < (demoteAcc cfg acc idx im0).delta.length := by
          intro x hx
          obtain ⟨g1, g2, _⟩ := demoteAcc_lengths cfg acc idx im0
          rw [g1, g2]
          exact hbd x (List.mem_cons_of_mem idx hx)
        obtain ⟨ihc1, ihc2, ihc3, ihc4⟩ := ih _ _ h hndr hbd1
        obtain ⟨g1, g2, g3⟩ := demoteAcc_lengths cfg acc idx im0
        refine ⟨?_, ?_, ?_, ?_⟩
        · rw [ihc1]
          simp [demoteAcc, List.filter_cons, hdt]
        · rw [ihc2]
          simp only [demoteAcc, List.filter_cons, hdt, if_true, List.length_cons]
          omega
        · intro idx2 hmem hd2 im2 htg2
          rcases List.mem_cons.mp hmem with rfl | hmem2
          · have him : im2 = im0 := by
              rw [htgt] at htg2
              injection htg2 with he
              exact he.symm
            subst him
            have hfr := ihc4 idx2 (fun i2 hi2 _ he => hnin (he ▸ hi2))
            obtain ⟨hf1, hf2⟩ := hfr
            have hw1 : (demoteAcc cfg acc idx2 im2).nnDelta.getD idx2 0 = Int.ofNat im2 :=
              getD_set_self _ _ _ _ (hbd idx2 (List.mem_cons_self _ _)).1
            have hw2 : (demoteAcc cfg acc idx2 im2).delta.getD idx2 0 = cfg.edist im2 idx2 :=
              getD_set_self _ _ _ _ (hbd idx2 (List.mem_cons_self _ _)).2
            refine ⟨by rw [hf1]; exact hw1, by rw [hf2]; exact hw2, ?_⟩
            intro hgl
            have hmem0 : idx2 ∈ (demoteAcc cfg acc idx2 im2).graph.getD im2 [] := by
              show idx2 ∈ (listAppendAt acc.graph im2 idx2).getD im2 []
              rw [listAppendAt_getD_self _ _ _ hgl]
              simp
            exact passLoop_graph_mono cfg fuel labels centersIn th rest _ _ h im2 idx2 hmem0
          · have hr := ihc3 idx2 hmem2 hd2 im2 htg2
            refine ⟨hr.1, hr.2.1, ?_⟩
            intro hgl
            exact hr.2.2 (by rw [g3]; exact hgl)
        · intro j hj
          have hjidx : j ≠ idx := hj idx (List.mem_cons_self _ _) hdt
          obtain ⟨hf1, hf2⟩ := ihc4 j (fun i2 hi2 hd2 => hj i2 (List.mem_cons_of_mem idx hi2) hd2)
          constructor
          · rw [hf1]
            show (acc.nnDelta.set idx (Int.ofNat im0)).getD j 0 = acc.nnDelta.getD j 0
            exact getD_set_of_ne _ _ _ _ _ (fun he => hjidx he.symm)
          · rw [hf2]
            show (acc.delta.set idx (cfg.edist im0 idx)).getD j 0 = acc.delta.getD j 0
            exact getD_set_of_ne _ _ _ _ _ (fun he => hjidx he.symm)
      · have hdf : demotes cfg fuel labels centersIn th idx = false := by
          rw [hdem]; exact decide_eq_false hcond
        have hbd1 : ∀ x ∈ rest, x < (keepAcc acc idx).nnDelta.length ∧
            x < (keepAcc acc idx).delta.length := by
          intro x hx
          exact hbd x (List.mem_cons_of_mem idx hx)
        obtain ⟨ihc1, ihc2, ihc3, ihc4⟩ := ih _ _ h hndr hbd1
        refine ⟨?_, ?_, ?_, ?_⟩
        · rw [ihc1]
          simp [keepAcc, List.filter_cons, hdf]
        · rw [ihc2]
          simp [keepAcc, List.filter_cons, hdf]
        · intro idx2 hmem hd2 im2 htg2
          rcases List.mem_cons.mp hmem with rfl | hmem2
          · rw [hd2] at hdf
            cases hdf
          · exact ihc3 idx2 hmem2 hd2 im2 htg2
        · intro j hj
          exact ihc4 j (fun i2 hi2 hd2 => hj i2 (List.mem_cons_of_mem idx hi2) hd2)

/-- Under in-range labels, `idx_centers[label_centers_nn]` consists
exactly of the accepted centers whose label occurs in `NH`. -/
theorem mem_nhLabelCenters_iff (centersIn : List Nat) (labels : List ℤ)
    (NH : List Nat) (hwf : labelsInRange centersIn labels NH)
    (hnd : centersIn.Nodup) (j : Nat) (hj : j < centersIn.length) :
    centersIn.getD j 0 ∈ nhLabelCenters centersIn labels NH ↔
      ∃ p ∈ NH, labels.getD p (-1) = (j : ℤ) := by
  unfold nhLabelCenters
  constructor
  · intro h
    obtain ⟨l, hl, hlv⟩ := List.mem_map.mp h
    rw [mem_npUnique] at hl
    obtain ⟨p, hp, hpl⟩ := List.mem_map.mp hl
    obtain ⟨hge, hlt⟩ := hwf p hp
    rw [hpl] at hge hlt
    rw [pyGetNat_nonneg_eq _ _ hge] at hlv
    have heq : l.toNat = j := by
      have h1 : centersIn.getD l.toNat 0 = centersIn[l.toNat] :=
        List.getD_eq_getElem centersIn 0 hlt
      have h2 : centersIn.getD j 0 = centersIn[j] :=
        List.getD_eq_getElem centersIn 0 hj
      rw [h1, h2] at hlv
      have hg : centersIn.get ⟨l.toNat, hlt⟩ = centersIn.get ⟨j, hj⟩ := by
        simpa [List.get_eq_getElem] using hlv
      have := (List.Nodup.get_inj_iff hnd).mp hg
      simpa using this
    exact ⟨p, hp, by rw [hpl]; omega⟩
  · rintro ⟨p, hp, hpl⟩
    apply List.mem_map.mpr
    refine ⟨(j : ℤ), ?_, ?_⟩
    · rw [mem_npUnique]
      exact List.mem_map.mpr ⟨p, hp, hpl⟩
    · rw [pyGetNat_nonneg_eq _ _ (by omega)]
      simp

/-- Claim C1: in every stability pass at threshold `eta`, a candidate
`idx` is demoted iff `rho[idx] < rho[idx_max]` strictly and
`idx ≠ idx_max`, where `idx_max` is a maximal-density currently-accepted
center among those whose label occurs in the extended neighborhood `NH`
of `idx`; on demotion the pass sets `parent[idx] = idx_max`, sets
`delta[idx]` to the direct feature-space Euclidean distance between the
two points, appends `idx` to `children[idx_max]`, and counts one false
positive; candidates whose density equals `rho[idx_max]` are never
merged. -/
theorem claim_C1 (cfg : Cfg) (fuel : Nat) (s : St) (th : ℚ)
    (c : List Nat) (fp : Nat) (s2 : St)
    (hrun : check_cluster_stability cfg fuel s th = some (c, fp, s2))
    (hnd : s.centers.Nodup)
    (hlen1 : s.nnDelta.length = cfg.n) (hlen2 : s.delta.length = cfg.n)
    (hlen3 : s.graph.length = cfg.n)
    (hcn : ∀ x ∈ s.centers, x < cfg.n) :
    c = s.centers.filter (fun i => ! demotes cfg fuel s.labels s.centers th i) ∧
    fp = (s.centers.filter (fun i => demotes cfg fuel s.labels s.centers th i)).length ∧
    (∀ idx ∈ s.centers, ∀ NH, passNH cfg fuel s.labels idx th = some NH →
      ∀ im, idxMaxOf cfg s.centers s.labels NH = some im →
        ((demotes cfg fuel s.labels s.centers th idx = true) ↔
          (cfg.rho.getD idx 0 < cfg.rho.getD im 0 ∧ idx ≠ im)) ∧
        (im ∈ nhLabelCenters s.centers s.labels NH ∧
          ∀ c2 ∈ nhLabelCenters s.centers s.labels NH,
            cfg.rho.getD c2 0 ≤ cfg.rho.getD im 0) ∧
        (labelsInRange s.centers s.labels NH →
          ∀ j, j < s.centers.length →
            (s.centers.getD j 0 ∈ nhLabelCenters s.centers s.labels NH ↔
              ∃ p ∈ NH, s.labels.getD p (-1) = (j : ℤ))) ∧
        (demotes cfg fuel s.labels s.centers th idx = true →
          s2.nnDelta.getD idx 0 = Int.ofNat im ∧
          s2.delta.getD idx 0 = cfg.edist im idx ∧
          (im < cfg.n → idx ∈ s2.graph.getD im [])) ∧
        (cfg.rho.getD idx 0 = cfg.rho.getD im 0 →
          demotes cfg fuel s.labels s.centers th idx = false)) := by
  unfold check_cluster_stability at hrun
  cases hp : passLoop cfg fuel s.labels s.centers th s.centers
      ⟨[], 0, s.nnDelta, s.delta, s.graph⟩ with
  | none => rw [hp] at hrun; simp at hrun
  | some acc =>
    simp only [hp, Option.some.injEq, Prod.mk.injEq] at hrun
    obtain ⟨hc, hfp, hs2⟩ := hrun
    have hbd : ∀ x ∈ s.centers,
        x < (⟨[], 0, s.nnDelta, s.delta, s.graph⟩ : PassAcc).nnDelta.length ∧
        x < (⟨[], 0, s.nnDelta, s.delta, s.graph⟩ : PassAcc).delta.length := by
      intro x hx
      have := hcn x hx
      constructor
      · show x < s.nnDelta.length
        omega
      · show x < s.delta.length
        omega
    obtain ⟨mc1, mc2, mc3, mc4⟩ :=
      passLoop_char cfg fuel s.labels s.centers th s.centers _ _ hp hnd hbd
    refine ⟨?_, ?_, ?_⟩
    · rw [← hc, mc1]
      simp
    · rw [← hfp, mc2]
      simp
    · intro idx hmem NH hNH im hIM
      have hdem := demotes_eq cfg fuel s.labels s.centers th idx NH im hNH hIM
      have htgt := targetOf_eq cfg fuel s.labels s.centers th idx NH im hNH hIM
      refine ⟨?_, ?_, ?_, ?_, ?_⟩
      · rw [hdem]
        simp
      · exact idxMaxOf_some_spec cfg s.centers s.labels NH im hIM
      · intro hwf j hj
        exact mem_nhLabelCenters_iff s.centers s.labels NH hwf hnd j hj
      · intro hd
        obtain ⟨e1, e2, e3⟩ := mc3 idx hmem hd im htgt
        have hs2n : s2.nnDelta = acc.nnDelta := by rw [← hs2]
        have hs2d : s2.delta = acc.delta := by rw [← hs2]
        have hs2g : s2.graph = acc.graph := by rw [← hs2]
        refine ⟨by rw [hs2n]; exact e1, by rw [hs2d]; exact e2, ?_⟩
        intro him
        rw [hs2g]
        apply e3
        show im < s.graph.length
        omega
      · intro heq
        rw [hdem]
        apply decide_eq_false
        intro hcond
        exact absurd heq (ne_of_lt hcond.1)

/-- A pass with zero false positives returns the candidate list it was
given and leaves the state untouched. -/
theorem check_fp_zero (cfg : Cfg) (fuel : Nat) (s : St) (th : ℚ)
    (c : List Nat) (s2 : St)
    (h : check_cluster_stability cfg fuel s th = some (c, 0, s2)) :
    c = s.centers ∧ s2 = s := by
  unfold check_cluster_stability at h
  cases hp : passLoop cfg fuel s.labels s.centers th s.centers
      ⟨[], 0, s.nnDelta, s.delta, s.graph⟩ with
  | none => rw [hp] at h; simp at h
  | some acc =>
    simp only [hp, Option.some.injEq, Prod.mk.injEq] at h
    obtain ⟨h1, h2, h3⟩ := h
    have hacc := passLoop_fp_eq cfg fuel s.labels s.centers th s.centers _ _ hp (by rw [h2])
    rw [hacc] at h1 h3
    constructor
    · rw [← h1]
      simp
    · rw [← h3]

/-- Applying the first-pass labeling twice in a row changes nothing. -/
theorem relabel_idem (cfg : Cfg) (s : St) :
    relabel cfg (relabel cfg s) = relabel cfg s := rfl

/-- Claim C8: after a converged run of the merger at a fixed `eta`
(a full pass produced zero false positives), the state is a fixed point:
relabeling reproduces the same labels, one more pass again produces zero
false positives and returns the same accepted centers, and re-running
the whole merger returns the state unchanged. -/
theorem claim_C8 (cfg : Cfg) (nhFuel : Nat) (eta : ℚ) :
    ∀ fuel s t, fastLoop cfg nhFuel eta fuel s = some t →
      relabel cfg t = t ∧
      check_cluster_stability cfg nhFuel t eta = some (t.centers, 0, t) ∧
      fastLoop cfg nhFuel eta 1 t = some t := by
  intro fuel
  induction fuel with
  | zero =>
    intro s t h
    unfold fastLoop at h
    simp at h
  | succ n ih =>
    intro s t h
    unfold fastLoop at h
    cases hc : check_cluster_stability cfg nhFuel (relabel cfg s) eta with
    | none => rw [hc] at h; simp at h
    | some trip =>
      obtain ⟨c, nfp, s2⟩ := trip
      simp only [hc] at h
      by_cases hz : nfp = 0
      · subst hz
        rw [if_pos rfl] at h
        obtain ⟨hcc, hss⟩ := check_fp_zero cfg nhFuel (relabel cfg s) eta c s2 hc
        injection h with h2
        subst hcc
        subst hss
        have ht : t = relabel cfg s := h2.symm
        subst ht
        refine ⟨relabel_idem cfg s, hc, ?_⟩
        show fastLoop cfg nhFuel eta (0 + 1) (relabel cfg s) = some (relabel cfg s)
        unfold fastLoop
        rw [relabel_idem cfg s]
        simp only [hc]
        rw [if_pos trivial]
      · rw [if_neg hz] at h
        exact ih _ _ h

/-! ### Concrete evaluations on the 5-point dataset -/

theorem cd5_eval : compute_delta cfg5 =
    (⟨[21/5, 1, 11/10, 9/10, 21/5], [-1, 0, 1, 4, -1], [[1], [2], [], [], [3]]⟩,
      [0, 4]) := by
  norm_num [compute_delta, computeDeltaStep, gradIdx, gradVals, nhRow, index_greater,
    findFirstAbove, tolSmall, listAppendAt, cfg5,
    show List.range 5 = [0, 1, 2, 3, 4] from rfl]
  exact ⟨rfl, rfl, rfl⟩

theorem s5_eval : s5 = sPre := by
  unfold s5 sPre
  rw [cd5_eval]
  rfl

theorem relabel_sPre : relabel cfg5
    ⟨[-1, 0, 1, 4, -1], [21/5, 1, 11/10, 9/10, 21/5],
      [[1], [2], [], [], [3]], [0, 4], [-1, -1, -1, -1, -1]⟩ =
    ⟨[-1, 0, 1, 4, -1], [21/5, 1, 11/10, 9/10, 21/5],
      [[1], [2], [], [], [3]], [0, 4], [0, 0, 0, 1, 1]⟩ := rfl

theorem relabel_sLab : relabel cfg5
    ⟨[-1, 0, 1, 4, -1], [21/5, 1, 11/10, 9/10, 21/5],
      [[1], [2], [], [], [3]], [0, 4], [0, 0, 0, 1, 1]⟩ =
    ⟨[-1, 0, 1, 4, -1], [21/5, 1, 11/10, 9/10, 21/5],
      [[1], [2], [], [], [3]], [0, 4], [0, 0, 0, 1, 1]⟩ := rfl

theorem relabel_sMid0 : relabel cfg5
    ⟨[-1, 0, 1, 4, 0], [21/5, 1, 11/10, 9/10, 21/5],
      [[1, 4], [2], [], [], [3]], [0], [0, 0, 0, 1, 1]⟩ =
    ⟨[-1, 0, 1, 4, 0], [21/5, 1, 11/10, 9/10, 21/5],
      [[1, 4], [2], [], [], [3]], [0], [0, 0, 0, 0, 0]⟩ := rfl

theorem relabel_tA : relabel cfg5
    ⟨[-1, 0, 1, 4, 0], [21/5, 1, 11/10, 9/10, 21/5],
      [[1, 4], [2], [], [], [3]], [0], [0, 0, 0, 0, 0]⟩ =
    ⟨[-1, 0, 1, 4, 0], [21/5, 1, 11/10, 9/10, 21/5],
      [[1, 4], [2], [], [], [3]], [0], [0, 0, 0, 0, 0]⟩ := rfl

theorem passA1 : check_cluster_stability cfg5 6
    ⟨[-1, 0, 1, 4, -1], [21/5, 1, 11/10, 9/10, 21/5],
      [[1], [2], [], [], [3]], [0, 4], [0, 0, 0, 1, 1]⟩ 0 =
    some ([0], 1,
      ⟨[-1, 0, 1, 4, 0], [21/5, 1, 11/10, 9/10, 21/5],
        [[1, 4], [2], [], [], [3]], [0, 4], [0, 0, 0, 1, 1]⟩) := by
  norm_num [check_cluster_stability, passLoop, passStep, passNH, idxMaxOf, nhLabelCenters,
    npUnique, sortInts, insSorted, argmaxQ, argmaxAux, pyGetNat, pyIdx, slice1,
    listAppendAt, demoteAcc, keepAcc, cfg5, X5]

theorem passA2 : check_cluster_stability cfg5 6
    ⟨[-1, 0, 1, 4, 0], [21/5, 1, 11/10, 9/10, 21/5],
      [[1, 4], [2], [], [], [3]], [0], [0, 0, 0, 0, 0]⟩ 0 =
    some ([0], 0,
      ⟨[-1, 0, 1, 4, 0], [21/5, 1, 11/10, 9/10, 21/5],
        [[1, 4], [2], [], [], [3]], [0], [0, 0, 0, 0, 0]⟩) := by
  norm_num [check_cluster_stability, passLoop, passStep, passNH, idxMaxOf, nhLabelCenters,
    npUnique, sortInts, insSorted, argmaxQ, argmaxAux, pyGetNat, pyIdx, slice1,
    listAppendAt, demoteAcc, keepAcc, cfg5, X5]

theorem passB1 : check_cluster_stability cfg5 6
    ⟨[-1, 0, 1, 4, -1], [21/5, 1, 11/10, 9/10, 21/5],
      [[1], [2], [], [], [3]], [0, 4], [0, 0, 0, 1, 1]⟩ (1/2) =
    some ([0, 4], 0,
      ⟨[-1, 0, 1, 4, -1], [21/5, 1, 11/10, 9/10, 21/5],
        [[1], [2], [], [], [3]], [0, 4], [0, 0, 0, 1, 1]⟩) := by
  norm_num [check_cluster_stability, passLoop, passStep, passNH, idxMaxOf, nhLabelCenters,
    npUnique, sortInts, insSorted, argmaxQ, argmaxAux, pyGetNat, pyIdx, slice1,
    listAppendAt, demoteAcc, keepAcc, find_NH_tree_search, findNHLoop, expandLeaf, admitStep,
    cfg5, X5]

theorem passC2 : check_cluster_stability cfg5 6
    ⟨[-1, 0, 1, 4, 0], [21/5, 1, 11/10, 9/10, 21/5],
      [[1, 4], [2], [], [], [3]], [0], [0, 0, 0, 0, 0]⟩ (1/2) =
    some ([0], 0,
      ⟨[-1, 0, 1, 4, 0], [21/5, 1, 11/10, 9/10, 21/5],
        [[1, 4], [2], [], [], [3]], [0], [0, 0, 0, 0, 0]⟩) := by
  norm_num [check_cluster_stability, passLoop, passStep, passNH, idxMaxOf, nhLabelCenters,
    npUnique, sortInts, insSorted, argmaxQ, argmaxAux, pyGetNat, pyIdx, slice1,
    listAppendAt, demoteAcc, keepAcc, find_NH_tree_search, findNHLoop, expandLeaf, admitStep,
    cfg5, X5]

/-- The zero-threshold run of the merger on the 5-point dataset
converges to a single center. -/
theorem fastA : fastLoop cfg5 6 0 4 s5 = some tA := by
  rw [s5_eval]
  norm_num [fastLoop, sPre, tA, relabel_sPre, passA1, relabel_sMid0, passA2]

/-- The `eta = 1/2` run of the merger on the 5-point dataset converges
immediately, keeping both centers. -/
theorem fastB : fastLoop cfg5 6 (1/2) 4 s5 = some sLab := by
  rw [s5_eval]
  norm_num [fastLoop, sPre, sLab, relabel_sPre, passB1]

/-- Continuing at `eta = 1/2` from the converged zero-threshold state
changes nothing. -/
theorem fastC : fastLoop cfg5 6 (1/2) 4 tA = some tA := by
  norm_num [fastLoop, tA, relabel_tA, passC2]

theorem coarse5_eval : coarse_grain cfg5 6 4 s5 [0, 1/2] =
    some ⟨tA, [([0], [0, 0, 0, 0, 0]), ([0], [0, 0, 0, 0, 0])], 0, 1⟩ := by
  norm_num [coarse_grain, coarseLoop, fastA, fastC,
    show tA.centers.length = 1 from rfl,
    show (tA.centers, tA.labels) = ([0], ([0, 0, 0, 0, 0] : List ℤ)) from rfl]

/-! ### Claim C4: per-pass subsequence and sweep monotonicity -/

theorem check_centers_sublist (cfg : Cfg) (fuel : Nat) (s : St) (th : ℚ)
    (c : List Nat) (fp : Nat) (s2 : St)
    (h : check_cluster_stability cfg fuel s th = some (c, fp, s2)) :
    c.Sublist s.centers ∧ s2.centers = s.centers := by
  unfold check_cluster_stability at h
  cases hp : passLoop cfg fuel s.labels s.centers th s.centers
      ⟨[], 0, s.nnDelta, s.delta, s.graph⟩ with
  | none => rw [hp] at h; simp at h
  | some acc =>
    simp only [hp, Option.some.injEq, Prod.mk.injEq] at h
    obtain ⟨h1, _, h3⟩ := h
    obtain ⟨l, hl, hsub⟩ := passLoop_trueCenters_append cfg fuel s.labels s.centers th
      s.centers _ _ hp
    constructor
    · rw [← h1, hl]
      simpa using hsub
    · rw [← h3]

theorem fastLoop_centers_sublist (cfg : Cfg) (nhFuel : Nat) (eta : ℚ) :
    ∀ fuel s t, fastLoop cfg nhFuel eta fuel s = some t →
      t.centers.Sublist s.centers := by
  intro fuel
  induction fuel with
  | zero =>
    intro s t h
    unfold fastLoop at h
    simp at h
  | succ n ih =>
    intro s t h
    unfold fastLoop at h
    cases hc : check_cluster_stability cfg nhFuel (relabel cfg s) eta with
    | none => rw [hc] at h; simp at h
    | some trip =>
      obtain ⟨c, nfp, s2⟩ := trip
      simp only [hc] at h
      obtain ⟨hsub, hcen⟩ := check_centers_sublist cfg nhFuel (relabel cfg s) eta c nfp s2 hc
      have hrc : (relabel cfg s).centers = s.centers := rfl
      by_cases hz : nfp = 0
      · rw [if_pos hz] at h
        injection h with h2
        rw [← h2]
        rw [hrc] at hsub
        exact hsub
      · rw [if_neg hz] at h
        have := ih _ _ h
        have hc2 : ({ s2 with centers := c } : St).centers = c := rfl
        rw [hc2] at this
        rw [hrc] at hsub
        exact this.trans hsub

theorem coarseLoop_chain (cfg : Cfg) (nhFuel loopFuel : Nat) :
    ∀ etas s hier mx ncl out,
      coarseLoop cfg nhFuel loopFuel etas s hier mx ncl = some out →
      List.Chain' (fun a b : List Nat × List ℤ => b.1.length ≤ a.1.length) hier →
      (∀ p, hier.getLast? = some p → s.centers.length ≤ p.1.length) →
      List.Chain' (fun a b : List Nat × List ℤ => b.1.length ≤ a.1.length)
        out.hierarchy := by
  intro etas
  induction etas with
  | nil =>
    intro s hier mx ncl out h hch _
    unfold coarseLoop at h
    cases h
    exact hch
  | cons nt rest ih =>
    intro s hier mx ncl out h hch hlast
    unfold coarseLoop at h
    cases hf : fastLoop cfg nhFuel nt loopFuel s with
    | none => rw [hf] at h; simp at h
    | some s2 =>
      simp only [hf] at h
      have hsub := fastLoop_centers_sublist cfg nhFuel nt loopFuel s s2 hf
      have hch2 : List.Chain' (fun a b : List Nat × List ℤ => b.1.length ≤ a.1.length)
          (hier ++ [(s2.centers, s2.labels)]) := by
        rw [List.chain'_append]
        refine ⟨hch, List.chain'_singleton _, ?_⟩
        intro x hx y hy
        simp only [List.head?_cons, Option.mem_def, Option.some.injEq] at hy
        rw [← hy]
        exact le_trans hsub.length_le (hlast x hx)
      have hlast2 : ∀ p, (hier ++ [(s2.centers, s2.labels)]).getLast? = some p →
          s2.centers.length ≤ p.1.length := by
        intro p hp
        rw [List.getLast?_concat] at hp
        injection hp with hp2
        rw [← hp2]
      by_cases hne : s2.centers.length ≠ ncl
      · rw [if_pos hne] at h
        exact ih _ _ _ _ _ h hch2 hlast2
      · rw [if_neg hne] at h
        exact ih _ _ _ _ _ h hch2 hlast2

/-- Claim C4 (amended): every merge pass returns an accepted-center
sequence that is a subsequence of the candidate set it started from, and
in a coarse-grain sweep (each threshold continuing from the previous
merged state) the recorded center count is non-increasing.  (The
cross-threshold comparison of two independent runs from the same initial
candidate set fails: see the counterexample.) -/
theorem claim_C4 (cfg : Cfg) :
    (∀ fuel s th c fp s2, check_cluster_stability cfg fuel s th = some (c, fp, s2) →
      c.Sublist s.centers) ∧
    (∀ nhFuel loopFuel s etas out,
      List.Chain' (fun a b : ℚ => a < b) etas →
      coarse_grain cfg nhFuel loopFuel s etas = some out →
      List.Chain' (fun a b : List Nat × List ℤ => b.1.length ≤ a.1.length)
        out.hierarchy) := by
  constructor
  · intro fuel s th c fp s2 h
    exact (check_centers_sublist cfg fuel s th c fp s2 h).1
  · intro nhFuel loopFuel s etas out _ h
    exact coarseLoop_chain cfg nhFuel loopFuel etas s [] (-1) 0 out h
      (List.chain'_nil) (fun p hp => by simp at hp)

/-- Claim C4 counterexample: from the same initial candidate set of the
5-point dataset, the merger converges to one center at `eta = 0` but to
two centers at the larger `eta = 1/2`: the number of accepted centers at
the larger threshold exceeds the number at the smaller one. -/
theorem claim_C4_counterexample :
    (0 : ℚ) < 1/2 ∧
    fastLoop cfg5 6 0 4 s5 = some tA ∧
    fastLoop cfg5 6 (1/2) 4 s5 = some sLab ∧
    sLab.centers.length > tA.centers.length := by
  exact ⟨by norm_num, fastA, fastB, by decide⟩

/-- Claim C4 witness: the subsequence property at a concrete pass and
the non-increasing recorded counts of a concrete increasing sweep. -/
theorem claim_C4_witness :
    (check_cluster_stability cfg5 6 sLab 0 = some ([0], 1, sMid) ∧
      List.Chain' (fun a b : ℚ => a < b) [0, 1/2] ∧
      coarse_grain cfg5 6 4 s5 [0, 1/2] =
        some ⟨tA, [([0], [0, 0, 0, 0, 0]), ([0], [0, 0, 0, 0, 0])], 0, 1⟩) ∧
    ([0] : List Nat).Sublist sLab.centers ∧
    List.Chain' (fun a b : List Nat × List ℤ => b.1.length ≤ a.1.length)
      [([0], [0, 0, 0, 0, 0]), ([0], [0, 0, 0, 0, 0])] := by
  have hrun : check_cluster_stability cfg5 6 sLab 0 = some ([0], 1, sMid) := passA1
  have hch : List.Chain' (fun a b : ℚ => a < b) [0, 1/2] := by
    rw [List.chain'_cons]
    exact ⟨by norm_num, List.chain'_singleton _⟩
  refine ⟨⟨hrun, hch, coarse5_eval⟩, ?_, ?_⟩
  · exact (claim_C4 cfg5).1 6 sLab 0 [0] 1 sMid hrun
  · exact (claim_C4 cfg5).2 6 4 s5 [0, 1/2] _ hch coarse5_eval

/-- Claim C8 witness: the converged zero-threshold run on the 5-point
dataset is a fixed point of the merger. -/
theorem claim_C8_witness :
    fastLoop cfg5 6 0 4 s5 = some tA ∧
    (relabel cfg5 tA = tA ∧
      check_cluster_stability cfg5 6 tA 0 = some (tA.centers, 0, tA) ∧
      fastLoop cfg5 6 0 1 tA = some tA) :=
  ⟨fastA, claim_C8 cfg5 6 0 4 s5 tA fastA⟩

/-- Claim C1 witness: the concrete zero-threshold pass on the labeled
5-point state demotes exactly candidate 4 and keeps candidate 0. -/
theorem claim_C1_witness :
    (check_cluster_stability cfg5 6 sLab 0 = some ([0], 1, sMid) ∧
      sLab.centers.Nodup ∧ sLab.nnDelta.length = cfg5.n ∧
      sLab.delta.length = cfg5.n ∧ sLab.graph.length = cfg5.n ∧
      ∀ x ∈ sLab.centers, x < cfg5.n) ∧
    ([0] = sLab.centers.filter
        (fun i => ! demotes cfg5 6 sLab.labels sLab.centers 0 i) ∧
      1 = (sLab.centers.filter
        (fun i => demotes cfg5 6 sLab.labels sLab.centers 0 i)).length) := by
  have hrun : check_cluster_stability cfg5 6 sLab 0 = some ([0], 1, sMid) := passA1
  have h := claim_C1 cfg5 6 sLab 0 [0] 1 sMid hrun (by decide) (by decide)
    (by decide) (by decide) (by decide)
  exact ⟨⟨hrun, by decide, by decide, by decide, by decide, by decide⟩, h.1, h.2.1⟩

/-- Claim C9: on a state whose extended neighborhood contains no
recognized center label (every point of `NH` carries the unassigned
label `-1`), the pass does not fail at all: numpy's negative indexing
makes `idx_centers[-1]` silently select the last accepted center (here
center 2), candidate 0 is demoted into it, and the pass returns normally
— no `InconsistentGraphError` exists anywhere in the code. -/
theorem claim_C9 :
    passNH cfg9 2 s9.labels 0 0 = some [1] ∧
    [1].map (fun p => s9.labels.getD p (-1)) = [-1] ∧
    (∀ j, j < s9.centers.length → (j : ℤ) ≠ -1) ∧
    pyGetNat s9.centers (-1) = 2 ∧
    s9.centers.getLast? = some 2 ∧
    check_cluster_stability cfg9 2 s9 0 =
      some ([2], 1, ⟨[2, 0, -1], [2, 1, 5], [[1], [], [0]], [0, 2], [0, -1, 1]⟩) := by
  refine ⟨?_, by decide, by decide, by decide, by decide, ?_⟩
  · norm_num [passNH, slice1, cfg9, s9]
  · norm_num [check_cluster_stability, passLoop, passStep, passNH, idxMaxOf,
      nhLabelCenters, npUnique, sortInts, insSorted, argmaxQ, argmaxAux,
      pyGetNat, pyIdx, slice1, listAppendAt, demoteAcc, keepAcc, cfg9, s9]

/-! ### Claim C3: characterization of the extended neighborhood -/

theorem admitFold_spec (cfg : Cfg) (thresh : ℚ) :
    ∀ (w : List Nat) (NH nl : List Nat),
      (∀ x ∈ NH, x ∈ (w.foldl (admitStep cfg thresh) (NH, nl)).1) ∧
      (∀ x ∈ nl, x ∈ (w.foldl (admitStep cfg thresh) (NH, nl)).2) ∧
      (∀ x ∈ (w.foldl (admitStep cfg thresh) (NH, nl)).1,
        x ∈ NH ∨ x ∈ (w.foldl (admitStep cfg thresh) (NH, nl)).2) ∧
      (∀ x ∈ (w.foldl (admitStep cfg thresh) (NH, nl)).2,
        x ∈ nl ∨ (x ∈ w ∧ thresh < cfg.rho.getD x 0)) ∧
      (∀ q ∈ w, thresh < cfg.rho.getD q 0 →
        q ∈ (w.foldl (admitStep cfg thresh) (NH, nl)).1) ∧
      (∀ x ∈ (w.foldl (admitStep cfg thresh) (NH, nl)).2,
        x ∈ (w.foldl (admitStep cfg thresh) (NH, nl)).1 ∨ x ∈ nl) := by
  intro w
  induction w with
  | nil =>
    intro NH nl
    refine ⟨fun x hx => hx, fun x hx => hx, fun x hx => Or.inl hx,
      fun x hx => Or.inl hx, fun q hq => absurd hq (by simp), fun x hx => Or.inr hx⟩
  | cons q0 w ih =>
    intro NH nl
    simp only [List.foldl_cons]
    unfold admitStep
    by_cases hadm : thresh < cfg.rho.getD q0 0 ∧ q0 ∉ NH
    · rw [if_pos hadm]
      obtain ⟨i1, i2, i3, i4, i5, i6⟩ := ih (NH ++ [q0]) (nl ++ [q0])
      refine ⟨?_, ?_, ?_, ?_, ?_, ?_⟩
      · intro x hx
        exact i1 x (List.mem_append_left _ hx)
      · intro x hx
        exact i2 x (List.mem_append_left _ hx)
      · intro x hx
        rcases i3 x hx with h2 | h2
        · rcases List.mem_append.mp h2 with h3 | h3
          · exact Or.inl h3
          · right
            apply i2
            rw [List.mem_singleton] at h3
            rw [h3]
            simp
        · exact Or.inr h2
      · intro x hx
        rcases i4 x hx with h2 | h2
        · rcases List.mem_append.mp h2 with h3 | h3
          · exact Or.inl h3
          · rw [List.mem_singleton] at h3
            subst h3
            exact Or.inr ⟨List.mem_cons_self _ _, hadm.1⟩
        · exact Or.inr ⟨List.mem_cons_of_mem _ h2.1, h2.2⟩
      · intro q hq hrq
        rcases List.mem_cons.mp hq with rfl | hq2
        · exact i1 q (List.mem_append_right _ (by simp))
        · exact i5 q hq2 hrq
      · intro x hx
        rcases i6 x hx with h2 | h2
        · exact Or.inl h2
        · rcases List.mem_append.mp h2 with h3 | h3
          · exact Or.inr h3
          · left
            apply i1
            rw [List.mem_singleton] at h3
            rw [h3]
            simp
    · rw [if_neg hadm]
      obtain ⟨i1, i2, i3, i4, i5, i6⟩ := ih NH nl
      refine ⟨i1, i2, i3, ?_, ?_, i6⟩
      · intro x hx
        rcases i4 x hx with h2 | h2
        · exact Or.inl h2
        · exact Or.inr ⟨List.mem_cons_of_mem _ h2.1, h2.2⟩
      · intro q hq hrq
        rcases List.mem_cons.mp hq with rfl | hq2
        · have : q ∈ NH := by
            by_contra hq3
            exact hadm ⟨hrq, hq3⟩
          exact i1 q this
        · exact i5 q hq2 hrq

theorem NHclosed_mono (cfg : Cfg) (labels : List ℤ) (curLab : ℤ) (thresh : ℚ)
    (S S2 : List Nat) (p : Nat) (hsub : ∀ x ∈ S, x ∈ S2)
    (h : NHclosed cfg labels curLab thresh S p) :
    NHclosed cfg labels curLab thresh S2 p := by
  intro hl q hq hr
  exact hsub q (h hl q hq hr)

theorem expandLeaf_spec (cfg : Cfg) (labels : List ℤ) (curLab : ℤ) (thresh : ℚ)
    (leaf : Nat) (NH nl : List Nat) :
    (∀ x ∈ NH, x ∈ (expandLeaf cfg labels curLab thresh (NH, nl) leaf).1) ∧
    (∀ x ∈ nl, x ∈ (expandLeaf cfg labels curLab thresh (NH, nl) leaf).2) ∧
    (∀ x ∈ (expandLeaf cfg labels curLab thresh (NH, nl) leaf).1,
      x ∈ NH ∨ x ∈ (expandLeaf cfg labels curLab thresh (NH, nl) leaf).2) ∧
    (∀ x ∈ (expandLeaf cfg labels curLab thresh (NH, nl) leaf).2,
      x ∈ nl ∨ (labels.getD leaf (-1) = curLab ∧
        x ∈ slice1 (cfg.nn.getD leaf []) cfg.search_size ∧
        thresh < cfg.rho.getD x 0)) ∧
    (NHclosed cfg labels curLab thresh
      (expandLeaf cfg labels curLab thresh (NH, nl) leaf).1 leaf) ∧
    (∀ x ∈ (expandLeaf cfg labels curLab thresh (NH, nl) leaf).2,
      x ∈ (expandLeaf cfg labels curLab thresh (NH, nl) leaf).1 ∨ x ∈ nl) := by
  unfold expandLeaf
  by_cases hl : labels.getD leaf (-1) = curLab
  · rw [if_pos hl]
    obtain ⟨i1, i2, i3, i4, i5, i6⟩ := admitFold_spec cfg thresh
      (slice1 (cfg.nn.getD leaf []) cfg.search_size) NH nl
    refine ⟨i1, i2, i3, ?_, ?_, i6⟩
    · intro x hx
      rcases i4 x hx with h2 | h2
      · exact Or.inl h2
      · exact Or.inr ⟨hl, h2.1, h2.2⟩
    · intro _ q hq hr
      exact i5 q hq hr
  · rw [if_neg hl]
    refine ⟨fun x hx => hx, fun x hx => hx, fun x hx => Or.inl hx,
      fun x hx => Or.inl hx, fun hl2 => absurd hl2 hl, fun x hx => Or.inr hx⟩

theorem roundFold_spec (cfg : Cfg) (labels : List ℤ) (curLab : ℤ) (thresh : ℚ) :
    ∀ (leaves : List Nat) (NH nl : List Nat),
    (∀ x ∈ NH, x ∈ (leaves.foldl (expandLeaf cfg labels curLab thresh) (NH, nl)).1) ∧
    (∀ x ∈ nl, x ∈ (leaves.foldl (expandLeaf cfg labels curLab thresh) (NH, nl)).2) ∧
    (∀ x ∈ (leaves.foldl (expandLeaf cfg labels curLab thresh) (NH, nl)).1,
      x ∈ NH ∨ x ∈ (leaves.foldl (expandLeaf cfg labels curLab thresh) (NH, nl)).2) ∧
    (∀ x ∈ (leaves.foldl (expandLeaf cfg labels curLab thresh) (NH, nl)).2,
      x ∈ nl ∨ ∃ p ∈ leaves, labels.getD p (-1) = curLab ∧
        x ∈ slice1 (cfg.nn.getD p []) cfg.search_size ∧
        thresh < cfg.rho.getD x 0) ∧
    (∀ leaf ∈ leaves, NHclosed cfg labels curLab thresh
      (leaves.foldl (expandLeaf cfg labels curLab thresh) (NH, nl)).1 leaf) ∧
    (∀ x ∈ (leaves.foldl (expandLeaf cfg labels curLab thresh) (NH, nl)).2,
      x ∈ (leaves.foldl (expandLeaf cfg labels curLab thresh) (NH, nl)).1 ∨ x ∈ nl) := by
  intro leaves
  induction leaves with
  | nil =>
    intro NH nl
    refine ⟨fun x hx => hx, fun x hx => hx, fun x hx => Or.inl hx,
      fun x hx => Or.inl hx, fun leaf hleaf => absurd hleaf (by simp),
      fun x hx => Or.inr hx⟩
  | cons leaf0 leaves ih =>
    intro NH nl
    simp only [List.foldl_cons]
    obtain ⟨e1, e2, e3, e4, e5, e6⟩ := expandLeaf_spec cfg labels curLab thresh leaf0 NH nl
    cases hres : expandLeaf cfg labels curLab thresh (NH, nl) leaf0 with
    | mk NH1 nl1 =>
      rw [hres] at e1 e2 e3 e4 e5 e6
      obtain ⟨i1, i2, i3, i4, i5, i6⟩ := ih NH1 nl1
      refine ⟨?_, ?_, ?_, ?_, ?_, ?_⟩
      · intro x hx
        exact i1 x (e1 x hx)
      · intro x hx
        exact i2 x (e2 x hx)
      · intro x hx
        rcases i3 x hx with h2 | h2
        · rcases e3 x h2 with h3 | h3
          · exact Or.inl h3
          · exact Or.inr (i2 x h3)
        · exact Or.inr h2
      · intro x hx
        rcases i4 x hx with h2 | h2
        · rcases e4 x h2 with h3 | h3
          · exact Or.inl h3
          · exact Or.inr ⟨leaf0, List.mem_cons_self _ _, h3⟩
        · obtain ⟨p, hp, hrest⟩ := h2
          exact Or.inr ⟨p, List.mem_cons_of_mem _ hp, hrest⟩
      · intro leaf hleaf
        rcases List.mem_cons.mp hleaf with rfl | hleaf2
        · exact NHclosed_mono cfg labels curLab thresh NH1 _ leaf i1 e5
        · exact i5 leaf hleaf2
      · intro x hx
        rcases i6 x hx with h2 | h2
        · exact Or.inl h2
        · rcases e6 x h2 with h3 | h3
          · exact Or.inl (i1 x h3)
          · exact Or.inr h3

theorem findNHLoop_spec (cfg : Cfg) (labels : List ℤ) (idx : Nat) (thresh : ℚ) :
    ∀ (fuel : Nat) (NH leaves out : List Nat),
      findNHLoop cfg labels (labels.getD idx (-1)) thresh fuel NH leaves = some out →
      (∀ x ∈ NH, NHmem cfg labels idx thresh x) →
      (∀ x ∈ leaves, x ∈ NH) →
      (∀ p ∈ NH, p ∈ leaves ∨
        NHclosed cfg labels (labels.getD idx (-1)) thresh NH p) →
      (∀ x ∈ NH, x ∈ out) ∧
      (∀ x ∈ out, NHmem cfg labels idx thresh x) ∧
      (∀ p ∈ out, NHclosed cfg labels (labels.getD idx (-1)) thresh out p) := by
  intro fuel
  induction fuel with
  | zero =>
    intro NH leaves out h _ _ _
    unfold findNHLoop at h
    simp at h
  | succ n ih =>
    intro NH leaves out h hI1 hI2 hI3
    unfold findNHLoop at h
    by_cases hemp : leaves = []
    · rw [if_pos hemp] at h
      injection h with h2
      subst h2
      refine ⟨fun x hx => hx, hI1, ?_⟩
      intro p hp
      rcases hI3 p hp with h2 | h2
      · rw [hemp] at h2
        simp at h2
      · exact h2
    · rw [if_neg hemp] at h
      obtain ⟨r1, r2, r3, r4, r5, r6⟩ := roundFold_spec cfg labels
        (labels.getD idx (-1)) thresh leaves NH []
      cases hres : leaves.foldl (expandLeaf cfg labels (labels.getD idx (-1)) thresh)
          (NH, []) with
      | mk NH1 nl1 =>
        rw [hres] at r1 r2 r3 r4 r5 r6 h
        have hI1' : ∀ x ∈ NH1, NHmem cfg labels idx thresh x := by
          intro x hx
          rcases r3 x hx with h2 | h2
          · exact hI1 x h2
          · rcases r4 x h2 with h3 | h3
            · simp at h3
            · obtain ⟨p, hp, hpl, hxw, hxr⟩ := h3
              exact NHmem.step p x (hI1 p (hI2 p hp)) hpl hxw hxr
        have hI2' : ∀ x ∈ nl1, x ∈ NH1 := by
          intro x hx
          rcases r6 x hx with h2 | h2
          · exact h2
          · simp at h2
        have hI3' : ∀ p ∈ NH1, p ∈ nl1 ∨
            NHclosed cfg labels (labels.getD idx (-1)) thresh NH1 p := by
          intro p hp
          rcases r3 p hp with h2 | h2
          · rcases hI3 p h2 with h3 | h3
            · exact Or.inr (r5 p h3)
            · exact Or.inr (NHclosed_mono cfg labels _ thresh NH NH1 p r1 h3)
          · exact Or.inl h2
        obtain ⟨o1, o2, o3⟩ := ih NH1 nl1 out h hI1' hI2' hI3'
        exact ⟨fun x hx => o1 x (r1 x hx), o2, o3⟩

/-- Claim C3: the extended neighborhood used by the merger is the plain
neighbor slice `nn[idx][1:search_size]` when `eta` is below the `1e-3`
floor; otherwise it is the result of the threshold-gated breadth-first
expansion, whose members are exactly the points justified by the closure
`NHmem`: the first `nh_size - 1` neighbors of `idx`,
plus points of density above `rho[idx] - eta` admitted from the
truncated `search_size` window of an already-admitted point carrying
`idx`'s current label, deduplicated, until no new points appear. -/
theorem claim_C3 (cfg : Cfg) (fuel : Nat) (labels : List ℤ) (idx : Nat) (eta : ℚ) :
    (eta < 1/1000 →
      passNH cfg fuel labels idx eta =
        some (slice1 (cfg.nn.getD idx []) cfg.search_size)) ∧
    (¬ eta < 1/1000 →
      passNH cfg fuel labels idx eta =
        find_NH_tree_search cfg labels fuel idx (cfg.rho.getD idx 0 - eta) ∧
      ∀ NH, find_NH_tree_search cfg labels fuel idx (cfg.rho.getD idx 0 - eta) = some NH →
        ∀ v, v ∈ NH ↔ NHmem cfg labels idx (cfg.rho.getD idx 0 - eta) v) := by
  constructor
  · intro hlow
    unfold passNH
    rw [if_pos hlow]
  · intro hhigh
    constructor
    · unfold passNH
      rw [if_neg hhigh]
    · intro NH h v
      unfold find_NH_tree_search at h
      obtain ⟨o1, o2, o3⟩ := findNHLoop_spec cfg labels idx (cfg.rho.getD idx 0 - eta)
        fuel _ _ NH h
        (fun x hx => NHmem.base x hx)
        (fun x hx => hx)
        (fun p hp => Or.inl hp)
      constructor
      · intro hv
        exact o2 v hv
      · intro hv
        induction hv with
        | base p hp => exact o1 p hp
        | step p q hp hl hq hr ihp => exact o3 p ihp hl q hq hr

theorem claim_C3_witness :
    ((0:ℚ) < 1/1000 ∧
      passNH cfg5 6 sLab.labels 4 0 =
        some (slice1 (cfg5.nn.getD 4 []) cfg5.search_size)) ∧
    (¬ ((1:ℚ)/2 < 1/1000) ∧
      passNH cfg5 6 sLab.labels 4 (1/2) =
        find_NH_tree_search cfg5 sLab.labels 6 4 (cfg5.rho.getD 4 0 - 1/2) ∧
      ∀ NH, find_NH_tree_search cfg5 sLab.labels 6 4 (cfg5.rho.getD 4 0 - 1/2) =
          some NH →
        ∀ v, v ∈ NH ↔ NHmem cfg5 sLab.labels 4 (cfg5.rho.getD 4 0 - 1/2) v) := by
  have h1 : (0:ℚ) < 1/1000 := by norm_num
  have h2 : ¬ ((1:ℚ)/2 < 1/1000) := by norm_num
  exact ⟨⟨h1, (claim_C3 cfg5 6 sLab.labels 4 0).1 h1⟩,
    ⟨h2, (claim_C3 cfg5 6 sLab.labels 4 (1/2)).2 h2⟩⟩

theorem acd_succ (g : List (List Nat)) (lab : ℤ) (fuel : Nat) (cl : List ℤ)
    (c : Nat) (rest : List Nat) :
    assign_cluster_deep g lab (fuel + 1) cl (c :: rest) =
      assign_cluster_deep g lab (fuel + 1)
        (assign_cluster_deep g lab fuel (cl.set c lab) (g.getD c [])) rest := rfl

theorem acd_length (g : List (List Nat)) (lab : ℤ) :
    ∀ (fuel : Nat) (root : List Nat) (cl : List ℤ),
      (assign_cluster_deep g lab fuel cl root).length = cl.length := by
  intro fuel
  induction fuel with
  | zero => intro root cl; rfl
  | succ fuel ih =>
    intro root
    induction root with
    | nil => intro cl; rfl
    | cons c rest ihr =>
      intro cl
      rw [acd_succ, ihr, ih, List.length_set]

theorem stamped_cons (g : List (List Nat)) (fuel : Nat) (c : Nat)
    (rest : List Nat) (v : Nat) :
    stamped g (fuel + 1) (c :: rest) v = true ↔
      v = c ∨ stamped g fuel (g.getD c []) v = true ∨
        stamped g (fuel + 1) rest v = true := by
  simp only [stamped, List.mem_cons, List.any_cons, Bool.or_eq_true,
    decide_eq_true_eq, List.any_eq_true]
  tauto

theorem acd_getD (g : List (List Nat)) (lab d : ℤ) :
    ∀ (fuel : Nat) (root : List Nat) (cl : List ℤ) (v : Nat),
      (assign_cluster_deep g lab fuel cl root).getD v d =
        if stamped g fuel root v = true ∧ v < cl.length then lab
        else cl.getD v d := by
  intro fuel
  induction fuel with
  | zero =>
    intro root cl v
    simp [assign_cluster_deep, stamped]
  | succ fuel ih =>
    intro root
    induction root with
    | nil =>
      intro cl v
      simp [assign_cluster_deep, stamped]
    | cons c rest ihr =>
      intro cl v
      rw [acd_succ, ihr, acd_length, List.length_set, ih, List.length_set]
      by_cases hv : v < cl.length
      · by_cases h1 : stamped g (fuel + 1) rest v = true
        · rw [if_pos ⟨h1, hv⟩,
            if_pos ⟨(stamped_cons g fuel c rest v).mpr (Or.inr (Or.inr h1)), hv⟩]
        · rw [if_neg (fun h => h1 h.1)]
          by_cases h2 : stamped g fuel (g.getD c []) v = true
          · rw [if_pos ⟨h2, hv⟩,
              if_pos ⟨(stamped_cons g fuel c rest v).mpr (Or.inr (Or.inl h2)), hv⟩]
          · rw [if_neg (fun h => h2 h.1)]
            by_cases h3 : v = c
            · subst h3
              rw [if_pos ⟨(stamped_cons g fuel v rest v).mpr (Or.inl rfl), hv⟩]
              exact getD_set_self cl v lab d hv
            · rw [if_neg]
              · exact getD_set_of_ne cl c v lab d (fun hc => h3 hc.symm)
              · intro h
                rcases (stamped_cons g fuel c rest v).mp h.1 with h4 | h4 | h4
                · exact h3 h4
                · exact h2 h4
                · exact h1 h4
      · rw [if_neg (fun h => hv h.2), if_neg (fun h => hv h.2),
          if_neg (fun h => hv h.2)]
        by_cases h3 : v = c
        · subst h3
          rw [List.set_eq_of_length_le (Nat.le_of_not_lt hv)]
        · exact getD_set_of_ne cl c v lab d (fun hc => h3 hc.symm)

theorem acStep_length (g : List (List Nat)) (fuel : Nat) (cl : List ℤ)
    (p : Nat × Nat) : (acStep g fuel cl p).length = cl.length := by
  unfold acStep
  rw [acd_length, List.length_set]

theorem acStep_getD (g : List (List Nat)) (fuel : Nat) (cl : List ℤ)
    (p : Nat × Nat) (v : Nat) (d : ℤ) :
    (acStep g fuel cl p).getD v d =
      if basin g fuel p.1 v = true ∧ v < cl.length then Int.ofNat p.2
      else cl.getD v d := by
  unfold acStep
  rw [acd_getD, List.length_set]
  by_cases hv : v < cl.length
  · by_cases h2 : stamped g fuel (g.getD p.1 []) v = true
    · rw [if_pos ⟨h2, hv⟩, if_pos ⟨by
        simp only [basin, Bool.or_eq_true, decide_eq_true_eq]
        exact Or.inr h2, hv⟩]
    · rw [if_neg (fun h => h2 h.1)]
      by_cases h3 : v = p.1
      · rw [if_pos ⟨by
          simp only [basin, Bool.or_eq_true, decide_eq_true_eq]
          exact Or.inl h3, hv⟩, h3]
        exact getD_set_self cl p.1 _ d (h3 ▸ hv)
      · rw [if_neg]
        · exact getD_set_of_ne cl p.1 v _ d (fun hc => h3 hc.symm)
        · intro h
          rcases h with ⟨hb, _⟩
          simp only [basin, Bool.or_eq_true, decide_eq_true_eq] at hb
          rcases hb with hb | hb
          · exact h3 hb
          · exact h2 hb
  · rw [if_neg (fun h => hv h.2), if_neg (fun h => hv h.2)]
    by_cases h3 : v = p.1
    · rw [← h3, List.set_eq_of_length_le (Nat.le_of_not_lt (h3 ▸ hv))]
    · exact getD_set_of_ne cl p.1 v _ d (fun hc => h3 hc.symm)

theorem acFold_length (g : List (List Nat)) (fuel : Nat) :
    ∀ (pairs : List (Nat × Nat)) (cl : List ℤ),
      (pairs.foldl (acStep g fuel) cl).length = cl.length := by
  intro pairs
  induction pairs with
  | nil => intro cl; rfl
  | cons p rest ih =>
    intro cl
    rw [List.foldl_cons, ih, acStep_length]

theorem acFold_frame (g : List (List Nat)) (fuel : Nat) (d : ℤ) :
    ∀ (pairs : List (Nat × Nat)) (cl : List ℤ) (v : Nat),
      (∀ p ∈ pairs, basin g fuel p.1 v = false) →
      (pairs.foldl (acStep g fuel) cl).getD v d = cl.getD v d := by
  intro pairs
  induction pairs with
  | nil => intro cl v _; rfl
  | cons q rest ih =>
    intro cl v hb
    have hq : basin g fuel q.1 v = false := hb q (List.mem_cons_self _ _)
    rw [List.foldl_cons, ih _ v (fun p hp => hb p (List.mem_cons_of_mem _ hp)),
      acStep_getD, if_neg (fun h => absurd h.1 (by simp [hq]))]

theorem acFold_write (g : List (List Nat)) (fuel : Nat) (d : ℤ) :
    ∀ (pairs : List (Nat × Nat)) (cl : List ℤ) (v : Nat) (p : Nat × Nat),
      p ∈ pairs → basin g fuel p.1 v = true → v < cl.length →
      (∀ q ∈ pairs, basin g fuel q.1 v = true → q = p) →
      pairs.Nodup →
      (pairs.foldl (acStep g fuel) cl).getD v d = Int.ofNat p.2 := by
  intro pairs
  induction pairs with
  | nil => intro cl v p hp; simp at hp
  | cons q rest ih =>
    intro cl v p hp hbas hv huniq hnd
    rw [List.foldl_cons]
    rcases List.mem_cons.mp hp with rfl | hp2
    · have hrest : ∀ r ∈ rest, basin g fuel r.1 v = false := by
        intro r hr
        cases hbr : basin g fuel r.1 v with
        | false => rfl
        | true =>
          have heq : r = p := huniq r (List.mem_cons_of_mem _ hr) hbr
          rw [heq] at hr
          exact absurd hr (List.nodup_cons.mp hnd).1
      rw [acFold_frame g fuel d rest _ v hrest, acStep_getD, if_pos ⟨hbas, hv⟩]
    · refine ih (acStep g fuel cl q) v p hp2 hbas ?_ ?_ (List.nodup_cons.mp hnd).2
      · rw [acStep_length]; exact hv
      · intro r hr hbr
        exact huniq r (List.mem_cons_of_mem _ hr) hbr

theorem reachN_refl (g : List (List Nat)) : ∀ (k u : Nat),
    reachN g k u u = true := by
  intro k u
  cases k with
  | zero => simp [reachN]
  | succ k => simp [reachN]

theorem reach_refl (g : List (List Nat)) (u : Nat) : Reach g u u :=
  ⟨0, reachN_refl g 0 u⟩

theorem reach_head (g : List (List Nat)) (u w v : Nat) (hw : w ∈ g.getD u [])
    (h : Reach g w v) : Reach g u v := by
  obtain ⟨k, hk⟩ := h
  refine ⟨k + 1, ?_⟩
  simp only [reachN, Bool.or_eq_true, decide_eq_true_eq, List.any_eq_true]
  exact Or.inr ⟨w, hw, hk⟩

theorem reach_first (g : List (List Nat)) (u v : Nat) (h : Reach g u v) :
    u = v ∨ ∃ w ∈ g.getD u [], Reach g w v := by
  obtain ⟨k, hk⟩ := h
  cases k with
  | zero => exact Or.inl (by simpa [reachN] using hk)
  | succ k =>
    simp only [reachN, Bool.or_eq_true, decide_eq_true_eq,
      List.any_eq_true] at hk
    rcases hk with h2 | ⟨w, hw, hr⟩
    · exact Or.inl h2
    · exact Or.inr ⟨w, hw, ⟨k, hr⟩⟩

theorem reachN_last (g : List (List Nat)) :
    ∀ (k u v : Nat), reachN g k u v = true →
      u = v ∨ ∃ a k', k' < k ∧ reachN g k' u a = true ∧ v ∈ g.getD a [] := by
  intro k
  induction k with
  | zero => intro u v h; exact Or.inl (by simpa [reachN] using h)
  | succ k ih =>
    intro u v h
    simp only [reachN, Bool.or_eq_true, decide_eq_true_eq,
      List.any_eq_true] at h
    rcases h with h | ⟨w, hw, hr⟩
    · exact Or.inl h
    · rcases ih w v hr with rfl | ⟨a, k', hk', hra, hva⟩
      · exact Or.inr ⟨u, 0, Nat.succ_pos k, reachN_refl g 0 u, hw⟩
      · refine Or.inr ⟨a, k' + 1, by omega, ?_, hva⟩
        simp only [reachN, Bool.or_eq_true, decide_eq_true_eq,
          List.any_eq_true]
        exact Or.inr ⟨w, hw, hra⟩

theorem reach_last (g : List (List Nat)) (u v : Nat) (h : Reach g u v) :
    u = v ∨ ∃ a, Reach g u a ∧ v ∈ g.getD a [] := by
  obtain ⟨k, hk⟩ := h
  rcases reachN_last g k u v hk with h2 | ⟨a, k', _, hra, hva⟩
  · exact Or.inl h2
  · exact Or.inr ⟨a, ⟨k', hra⟩, hva⟩

theorem mem_flatten_of_edge (g : List (List Nat)) (a b : Nat)
    (h : b ∈ g.getD a []) : b ∈ g.flatten := by
  by_cases ha : a < g.length
  · refine List.mem_flatten.mpr ⟨g.getD a [], ?_, h⟩
    rw [List.getD_eq_getElem g [] ha]
    exact List.getElem_mem ha
  · rw [List.getD_eq_default _ _ (Nat.le_of_not_lt ha)] at h
    simp at h

theorem reach_target (g : List (List Nat)) (u v : Nat) (h : Reach g u v) :
    u = v ∨ v ∈ g.flatten := by
  rcases reach_last g u v h with h2 | ⟨a, _, hva⟩
  · exact Or.inl h2
  · exact Or.inr (mem_flatten_of_edge g a v hva)

theorem unique_parent (g : List (List Nat)) (hnd : g.flatten.Nodup)
    (a a' b : Nat) (ha : b ∈ g.getD a []) (ha' : b ∈ g.getD a' []) :
    a = a' := by
  by_contra hne
  have haL : a < g.length := by
    by_contra h
    rw [List.getD_eq_default _ _ (Nat.le_of_not_lt h)] at ha
    simp at ha
  have haL' : a' < g.length := by
    by_contra h
    rw [List.getD_eq_default _ _ (Nat.le_of_not_lt h)] at ha'
    simp at ha'
  obtain ⟨_, hpair⟩ := List.nodup_flatten.mp hnd
  have hdisj := List.pairwise_iff_getElem.mp hpair
  rw [List.getD_eq_getElem g [] haL] at ha
  rw [List.getD_eq_getElem g [] haL'] at ha'
  rcases Nat.lt_or_ge a a' with hlt | hge
  · exact hdisj a a' haL haL' hlt ha ha'
  · have hlt : a' < a := Nat.lt_of_le_of_ne hge (fun h => hne h.symm)
    exact hdisj a' a haL' haL hlt ha' ha

theorem reach_backward_unique (g : List (List Nat)) (hnd : g.flatten.Nodup) :
    ∀ (k : Nat) (u u' v : Nat),
      reachN g k u v = true → Reach g u' v →
      u ∉ g.flatten → u' ∉ g.flatten → u = u' := by
  intro k
  induction k using Nat.strong_induction_on with
  | _ k ih =>
    intro u u' v hk hr' hu hu'
    rcases reachN_last g k u v hk with rfl | ⟨a, k', hk', hra, hva⟩
    · rcases reach_last g u' u hr' with h2 | ⟨a', _, hva'⟩
      · exact h2.symm
      · exact absurd (mem_flatten_of_edge g a' u hva') hu
    · rcases reach_last g u' v hr' with rfl | ⟨a', hra', hva'⟩
      · exact absurd (mem_flatten_of_edge g a u' hva) hu'
      · have haa : a' = a := unique_parent g hnd a' a v hva' hva
        subst haa
        exact ih k' hk' u u' a' hra hra' hu hu'

theorem reach_root_unique (g : List (List Nat)) (hnd : g.flatten.Nodup)
    (u u' v : Nat) (h : Reach g u v) (h' : Reach g u' v)
    (hu : u ∉ g.flatten) (hu' : u' ∉ g.flatten) : u = u' := by
  obtain ⟨k, hk⟩ := h
  exact reach_backward_unique g hnd k u u' v hk h' hu hu'

theorem reachN_to_chain (g : List (List Nat)) :
    ∀ (k u v : Nat), reachN g k u v = true →
      ∃ p : List Nat, List.Chain' (fun a b => b ∈ g.getD a []) (u :: p) ∧
        (u :: p).getLast? = some v ∧ p.length ≤ k := by
  intro k
  induction k with
  | zero =>
    intro u v h
    have h2 : u = v := by simpa [reachN] using h
    exact ⟨[], List.chain'_singleton u, by rw [h2]; rfl, Nat.le_refl 0⟩
  | succ k ih =>
    intro u v h
    simp only [reachN, Bool.or_eq_true, decide_eq_true_eq,
      List.any_eq_true] at h
    rcases h with rfl | ⟨w, hw, hr⟩
    · exact ⟨[], List.chain'_singleton u, rfl, Nat.zero_le _⟩
    · obtain ⟨p, hc, hl, hlen⟩ := ih w v hr
      refine ⟨w :: p, List.chain'_cons.mpr ⟨hw, hc⟩, ?_, ?_⟩
      · rw [List.getLast?_cons_cons]
        exact hl
      · simpa using Nat.succ_le_succ hlen

theorem chain_to_reachN (g : List (List Nat)) :
    ∀ (p : List Nat) (u v k : Nat),
      List.Chain' (fun a b => b ∈ g.getD a []) (u :: p) →
      (u :: p).getLast? = some v → p.length ≤ k →
      reachN g k u v = true := by
  intro p
  induction p with
  | nil =>
    intro u v k _ hl _
    have h2 : u = v := by simpa using hl
    rw [h2]
    exact reachN_refl g k v
  | cons w p ih =>
    intro u v k hc hl hk
    obtain ⟨k', rfl⟩ : ∃ k', k = k' + 1 := by
      cases k with
      | zero => exact absurd hk (by simp)
      | succ m => exact ⟨m, rfl⟩
    have hc2 := List.chain'_cons.mp hc
    simp only [reachN, Bool.or_eq_true, decide_eq_true_eq, List.any_eq_true]
    refine Or.inr ⟨w, hc2.1, ih w v k' hc2.2 ?_ ?_⟩
    · rw [← List.getLast?_cons_cons]
      exact hl
    · have : p.length + 1 ≤ k' + 1 := by simpa using hk
      omega

theorem exists_dup_split {α : Type} [DecidableEq α] :
    ∀ (p : List α), ¬ p.Nodup →
      ∃ (a : α) (l1 l2 l3 : List α), p = l1 ++ a :: l2 ++ a :: l3 := by
  intro p
  induction p with
  | nil => intro h; exact absurd List.nodup_nil h
  | cons x t ih =>
    intro h
    by_cases hx : x ∈ t
    · obtain ⟨l2, l3, rfl⟩ := List.append_of_mem hx
      exact ⟨x, [], l2, l3, rfl⟩
    · have ht : ¬ t.Nodup := fun hnd => h (List.nodup_cons.mpr ⟨hx, hnd⟩)
      obtain ⟨a, l1, l2, l3, rfl⟩ := ih ht
      exact ⟨a, x :: l1, l2, l3, rfl⟩

theorem chain_shorten (g : List (List Nat)) :
    ∀ (m : Nat) (p : List Nat), p.length ≤ m →
      List.Chain' (fun a b => b ∈ g.getD a []) p →
      ∃ q : List Nat, List.Chain' (fun a b => b ∈ g.getD a []) q ∧
        q.head? = p.head? ∧ q.getLast? = p.getLast? ∧ q.Nodup := by
  intro m
  induction m with
  | zero =>
    intro p hp hc
    have h2 : p = [] := List.length_eq_zero.mp (Nat.le_zero.mp hp)
    subst h2
    exact ⟨[], List.chain'_nil, rfl, rfl, List.nodup_nil⟩
  | succ m ih =>
    intro p hp hc
    by_cases hnd : p.Nodup
    · exact ⟨p, hc, rfl, rfl, hnd⟩
    · obtain ⟨a, l1, l2, l3, rfl⟩ := exists_dup_split p hnd
      have hc1 : List.Chain' (fun a b => b ∈ g.getD a []) (l1 ++ a :: l3) := by
        have h1 := List.chain'_split.mp hc
        have h2 : List.Chain' (fun a b => b ∈ g.getD a [])
            (l1 ++ a :: (l2 ++ [a])) := by
          have h4 : (l1 ++ a :: l2) ++ [a] = l1 ++ a :: (l2 ++ [a]) := by
            simp [List.append_assoc]
          rw [← h4]
          exact h1.1
        have h3 := (List.chain'_split.mp h2).1
        exact List.chain'_split.mpr ⟨h3, h1.2⟩
      have hlen : (l1 ++ a :: l3).length ≤ m := by
        have h4 : ((l1 ++ a :: l2) ++ a :: l3).length ≤ m + 1 := hp
        simp only [List.length_append, List.length_cons] at h4 ⊢
        omega
      obtain ⟨q, hq, hh, hl, hnd2⟩ := ih (l1 ++ a :: l3) hlen hc1
      refine ⟨q, hq, ?_, ?_, hnd2⟩
      · rw [hh]
        cases l1 with
        | nil => rfl
        | cons x l1' => rfl
      · rw [hl, List.getLast?_append_of_ne_nil l1 (List.cons_ne_nil a l3),
          List.getLast?_append_of_ne_nil (l1 ++ a :: l2)
            (List.cons_ne_nil a l3)]

theorem nodup_lt_length_le (p : List Nat) (n : Nat) (hnd : p.Nodup)
    (hlt : ∀ x ∈ p, x < n) : p.length ≤ n := by
  have hsub : p ⊆ List.range n := fun x hx => List.mem_range.mpr (hlt x hx)
  have h2 := List.Subperm.length_le (List.subperm_of_subset hnd hsub)
  simpa using h2

theorem chain_mem_flatten (g : List (List Nat)) :
    ∀ (p : List Nat) (u : Nat),
      List.Chain' (fun a b => b ∈ g.getD a []) (u :: p) →
      ∀ x ∈ p, x ∈ g.flatten := by
  intro p
  induction p with
  | nil => intro u _ x hx; simp at hx
  | cons w p ih =>
    intro u hc x hx
    have hc2 := List.chain'_cons.mp hc
    rcases List.mem_cons.mp hx with rfl | hx2
    · exact mem_flatten_of_edge g u x hc2.1
    · exact ih w hc2.2 x hx2

theorem reach_short (g : List (List Nat)) (n : Nat) (u v : Nat)
    (hu : u < n) (hflt : ∀ x ∈ g.flatten, x < n) (h : Reach g u v) :
    reachN g (n - 1) u v = true := by
  obtain ⟨k, hk⟩ := h
  obtain ⟨p, hc, hl, _⟩ := reachN_to_chain g k u v hk
  obtain ⟨q, hqc, hqh, hql, hqnd⟩ :=
    chain_shorten g (u :: p).length (u :: p) (Nat.le_refl _) hc
  obtain ⟨q', rfl⟩ : ∃ q', q = u :: q' := by
    cases q with
    | nil => simp at hqh
    | cons y q' =>
      have hy : y = u := by simpa using hqh
      exact ⟨q', by rw [hy]⟩
  have hmem : ∀ x ∈ u :: q', x < n := by
    intro x hx
    rcases List.mem_cons.mp hx with rfl | hx2
    · exact hu
    · exact hflt x (chain_mem_flatten g q' u hqc x hx2)
  have hlen := nodup_lt_length_le (u :: q') n hqnd hmem
  refine chain_to_reachN g q' u v (n - 1) hqc ?_ ?_
  · rw [hql]
    exact hl
  · simp only [List.length_cons] at hlen
    omega

theorem stamped_sound (g : List (List Nat)) :
    ∀ (fuel : Nat) (root : List Nat) (v : Nat),
      stamped g fuel root v = true → ∃ r ∈ root, Reach g r v := by
  intro fuel
  induction fuel with
  | zero => intro root v h; simp [stamped] at h
  | succ fuel ih =>
    intro root v h
    simp only [stamped, Bool.or_eq_true, decide_eq_true_eq,
      List.any_eq_true] at h
    rcases h with h | ⟨c, hc, hs⟩
    · exact ⟨v, h, reach_refl g v⟩
    · obtain ⟨r, hr, hrv⟩ := ih (g.getD c []) v hs
      exact ⟨c, hc, reach_head g c r v hr hrv⟩

theorem stamped_complete (g : List (List Nat)) :
    ∀ (k fuel : Nat) (root : List Nat) (r v : Nat),
      r ∈ root → reachN g k r v = true → k < fuel →
      stamped g fuel root v = true := by
  intro k
  induction k with
  | zero =>
    intro fuel root r v hr hk hf
    have h2 : r = v := by simpa [reachN] using hk
    subst h2
    obtain ⟨f', rfl⟩ : ∃ f', fuel = f' + 1 := ⟨fuel - 1, by omega⟩
    simp only [stamped, Bool.or_eq_true, decide_eq_true_eq, List.any_eq_true]
    exact Or.inl hr
  | succ k ih =>
    intro fuel root r v hr hk hf
    simp only [reachN, Bool.or_eq_true, decide_eq_true_eq,
      List.any_eq_true] at hk
    obtain ⟨f', rfl⟩ : ∃ f', fuel = f' + 1 := ⟨fuel - 1, by omega⟩
    simp only [stamped, Bool.or_eq_true, decide_eq_true_eq, List.any_eq_true]
    rcases hk with rfl | ⟨w, hw, hrw⟩
    · exact Or.inl hr
    · exact Or.inr ⟨r, hr, ih f' (g.getD r []) w v hw hrw (by omega)⟩

theorem basin_sound (g : List (List Nat)) (fuel : Nat) (c v : Nat)
    (h : basin g fuel c v = true) : Reach g c v := by
  simp only [basin, Bool.or_eq_true, decide_eq_true_eq] at h
  rcases h with rfl | h
  · exact reach_refl g v
  · obtain ⟨r, hr, hrv⟩ := stamped_sound g fuel (g.getD c []) v h
    exact reach_head g c r v hr hrv

theorem basin_complete (g : List (List Nat)) (n fuel : Nat) (c v : Nat)
    (hflt : ∀ x ∈ g.flatten, x < n) (hfuel : n ≤ fuel)
    (h : Reach g c v) : basin g fuel c v = true := by
  simp only [basin, Bool.or_eq_true, decide_eq_true_eq]
  rcases reach_first g c v h with h2 | ⟨w, hw, hrv⟩
  · exact Or.inl h2.symm
  · refine Or.inr ?_
    have hwn : w < n := hflt w (mem_flatten_of_edge g c w hw)
    have hshort := reach_short g n w v hwn hflt hrv
    exact stamped_complete g (n - 1) fuel (g.getD c []) w v hw hshort
      (by omega)

theorem zip_range_mem (centers : List Nat) (a b : Nat)
    (hq : (a, b) ∈ List.zip centers (List.range centers.length)) :
    ∃ h : b < centers.length, a = centers.get ⟨b, h⟩ := by
  obtain ⟨i, hi, hget⟩ := List.mem_iff_getElem.mp hq
  have hil : i < centers.length := by
    simpa [List.length_zip, List.length_range] using hi
  rw [List.getElem_zip] at hget
  have h1 : centers[i] = a := congrArg Prod.fst hget
  have hir : i < (List.range centers.length).length := by simpa using hil
  have h2 : (List.range centers.length)[i] = b := congrArg Prod.snd hget
  rw [List.getElem_range] at h2
  subst h2
  exact ⟨hil, h1.symm⟩

theorem zip_range_mem_of (centers : List Nat) (j : Nat)
    (hj : j < centers.length) :
    (centers.get ⟨j, hj⟩, j) ∈ List.zip centers (List.range centers.length) := by
  have hjz : j < (List.zip centers (List.range centers.length)).length := by
    simp [List.length_zip, List.length_range]
    omega
  have h1 := List.getElem_mem hjz
  rw [List.getElem_zip, List.getElem_range] at h1
  exact h1

theorem zip_range_nodup (centers : List Nat) :
    (List.zip centers (List.range centers.length)).Nodup := by
  apply List.Nodup.of_map Prod.snd
  rw [List.map_snd_zip]
  · exact List.nodup_range centers.length
  · simp [List.length_range]

/-- Claim C6: after the label propagator runs over accepted centers
`c_0 .. c_{m-1}` and a children forest `g` (each point at most one parent,
no accepted center is anyone's child, all children indices in range, and
enough recursion depth), every center `c_j` carries its own positional
label `j`; every point reachable from `c_j` along children edges carries
exactly the label `j`; basins of distinct centers are disjoint; and a
point is labeled (not `-1`) exactly when some accepted center reaches it. -/
theorem claim_C6 (n fuel : Nat) (centers : List Nat) (g : List (List Nat))
    (hfuel : n ≤ fuel)
    (hC : ∀ c ∈ centers, c < n)
    (hCnd : centers.Nodup)
    (hFnd : g.flatten.Nodup)
    (hFlt : ∀ x ∈ g.flatten, x < n)
    (hCF : ∀ c ∈ centers, c ∉ g.flatten) :
    (∀ j (hj : j < centers.length),
      (assign_cluster fuel centers n g).getD (centers.get ⟨j, hj⟩) (-1) =
        Int.ofNat j) ∧
    (∀ j (hj : j < centers.length), ∀ v, Reach g (centers.get ⟨j, hj⟩) v →
      (assign_cluster fuel centers n g).getD v (-1) = Int.ofNat j) ∧
    (∀ j k (hj : j < centers.length) (hk : k < centers.length), ∀ v,
      Reach g (centers.get ⟨j, hj⟩) v → Reach g (centers.get ⟨k, hk⟩) v →
        j = k) ∧
    (∀ v, v < n →
      ((assign_cluster fuel centers n g).getD v (-1) ≠ -1 ↔
        ∃ c ∈ centers, Reach g c v)) := by
  have hdisjC : ∀ (c c' v : Nat), c ∈ centers → c' ∈ centers →
      Reach g c v → Reach g c' v → c = c' := by
    intro c c' v hc1 hc2 hr1 hr2
    exact reach_root_unique g hFnd c c' v hr1 hr2 (hCF c hc1) (hCF c' hc2)
  have hb : ∀ j (hj : j < centers.length), ∀ v,
      Reach g (centers.get ⟨j, hj⟩) v →
      (assign_cluster fuel centers n g).getD v (-1) = Int.ofNat j := by
    intro j hj v hrv
    have hcj : centers.get ⟨j, hj⟩ ∈ centers := List.get_mem _ _ _
    have hvn : v < n := by
      rcases reach_target g _ v hrv with h2 | h2
      · rw [← h2]
        exact hC _ hcj
      · exact hFlt v h2
    unfold assign_cluster
    refine acFold_write g fuel (-1) _ _ v (centers.get ⟨j, hj⟩, j)
      (zip_range_mem_of centers j hj)
      (basin_complete g n fuel _ v hFlt hfuel hrv)
      (by rw [List.length_replicate]; exact hvn)
      ?_ (zip_range_nodup centers)
    intro q hq hbq
    obtain ⟨a, b⟩ := q
    obtain ⟨hb2, hab⟩ := zip_range_mem centers a b hq
    have hra : Reach g a v := basin_sound g fuel a v hbq
    have hamem : a ∈ centers := by
      rw [hab]
      exact List.get_mem _ _ _
    have haeq : a = centers.get ⟨j, hj⟩ := hdisjC a _ v hamem hcj hra hrv
    have hbj : b = j := by
      have h3 : centers.get ⟨b, hb2⟩ = centers.get ⟨j, hj⟩ := by
        rw [← hab]
        exact haeq
      simp only [List.get_eq_getElem] at h3
      exact (hCnd.getElem_inj_iff).mp h3
    rw [haeq, hbj]
  have ha : ∀ j (hj : j < centers.length),
      (assign_cluster fuel centers n g).getD (centers.get ⟨j, hj⟩) (-1) =
        Int.ofNat j :=
    fun j hj => hb j hj _ (reach_refl g _)
  have hc3 : ∀ j k (hj : j < centers.length) (hk : k < centers.length), ∀ v,
      Reach g (centers.get ⟨j, hj⟩) v → Reach g (centers.get ⟨k, hk⟩) v →
        j = k := by
    intro j k hj hk v hrj hrk
    have h2 := hdisjC _ _ v (List.get_mem _ _ _) (List.get_mem _ _ _) hrj hrk
    simp only [List.get_eq_getElem] at h2
    exact (hCnd.getElem_inj_iff).mp h2
  refine ⟨ha, hb, hc3, ?_⟩
  intro v hv
  constructor
  · intro hne
    by_contra hnex
    push_neg at hnex
    have hfr : ∀ p ∈ List.zip centers (List.range centers.length),
        basin g fuel p.1 v = false := by
      intro p hp
      obtain ⟨a, b⟩ := p
      obtain ⟨hb2, hab⟩ := zip_range_mem centers a b hp
      cases hbv : basin g fuel a v with
      | false => rfl
      | true =>
        refine absurd (basin_sound g fuel a v hbv) (hnex a ?_)
        rw [hab]
        exact List.get_mem _ _ _
    unfold assign_cluster at hne
    rw [acFold_frame g fuel (-1) _ (List.replicate n (-1)) v hfr,
      getD_replicate n v (-1) (-1) hv] at hne
    exact hne rfl
  · rintro ⟨c, hcmem, hrc⟩
    obtain ⟨⟨j, hj⟩, rfl⟩ := List.mem_iff_get.mp hcmem
    rw [hb j hj v hrc]
    simp

/-- Witness for C6 on a concrete 5-point forest with two accepted centers. -/
theorem claim_C6_witness :
    (5 ≤ 5 ∧ (∀ c ∈ ([0, 4] : List Nat), c < 5) ∧
      ([0, 4] : List Nat).Nodup ∧
      ([[1], [2], [], [], [3]] : List (List Nat)).flatten.Nodup ∧
      (∀ x ∈ ([[1], [2], [], [], [3]] : List (List Nat)).flatten, x < 5) ∧
      (∀ c ∈ ([0, 4] : List Nat),
        c ∉ ([[1], [2], [], [], [3]] : List (List Nat)).flatten)) ∧
    ((∀ j (hj : j < ([0, 4] : List Nat).length),
      (assign_cluster 5 [0, 4] 5 [[1], [2], [], [], [3]]).getD
        (([0, 4] : List Nat).get ⟨j, hj⟩) (-1) = Int.ofNat j) ∧
    (∀ j (hj : j < ([0, 4] : List Nat).length), ∀ v,
      Reach [[1], [2], [], [], [3]] (([0, 4] : List Nat).get ⟨j, hj⟩) v →
      (assign_cluster 5 [0, 4] 5 [[1], [2], [], [], [3]]).getD v (-1) =
        Int.ofNat j) ∧
    (∀ j k (hj : j < ([0, 4] : List Nat).length)
        (hk : k < ([0, 4] : List Nat).length), ∀ v,
      Reach [[1], [2], [], [], [3]] (([0, 4] : List Nat).get ⟨j, hj⟩) v →
      Reach [[1], [2], [], [], [3]] (([0, 4] : List Nat).get ⟨k, hk⟩) v →
        j = k) ∧
    (∀ v, v < 5 →
      ((assign_cluster 5 [0, 4] 5 [[1], [2], [], [], [3]]).getD v (-1) ≠ -1 ↔
        ∃ c ∈ ([0, 4] : List Nat), Reach [[1], [2], [], [], [3]] c v))) :=
  ⟨⟨by decide, by decide, by decide, by decide, by decide, by decide⟩,
    claim_C6 5 5 [0, 4] [[1], [2], [], [], [3]] (by decide) (by decide)
      (by decide) (by decide) (by decide) (by decide)⟩

end FDC
